import Mathlib

/-!
Verification of the configuration model of the `confidence` library
(`confidence/models.py`, `confidence/utils.py`, `confidence/exceptions.py`).

The embedding models plain configuration values (the trees handed to the
core by the format layer) as an inductive `Value`; Python `dict`s become
insertion-ordered association lists with unique keys, which is exactly the
observable behaviour of a `dict`.  Stateful code (in-place merging, the
reference-resolution loop) is embedded as explicit state passing; fallible
code returns `Except PyErr`.
-/

/-- Model of a plain Python value as handed to the configuration core:
`None`, booleans, integers, strings, lists and string-keyed mappings.
A mapping is an insertion-ordered association list, mirroring `dict`. -/
inductive Value where
  | none : Value
  | bool (b : Bool) : Value
  | int (n : Int) : Value
  | str (s : String) : Value
  | list (xs : List Value) : Value
  | map (es : List (String × Value)) : Value
deriving Repr

/-- Entries of a mapping value: an insertion-ordered association list. -/
abbrev Entries := List (String × Value)

mutual

/-- Boolean structural equality on `Value`, used to build `DecidableEq`. -/
def beqV : Value → Value → Bool
  | .none, .none => true
  | .bool a, .bool b => a == b
  | .int a, .int b => a == b
  | .str a, .str b => a == b
  | .list a, .list b => beqVL a b
  | .map a, .map b => beqVE a b
  | _, _ => false

/-- Boolean structural equality on lists of values. -/
def beqVL : List Value → List Value → Bool
  | [], [] => true
  | a :: as, b :: bs => beqV a b && beqVL as bs
  | _, _ => false

/-- Boolean structural equality on mapping entries. -/
def beqVE : Entries → Entries → Bool
  | [], [] => true
  | (k1, v1) :: r1, (k2, v2) :: r2 => k1 == k2 && beqV v1 v2 && beqVE r1 r2
  | _, _ => false

end

mutual

theorem beqV_iff : ∀ a b, beqV a b = true ↔ a = b
  | .none, b => by cases b <;> simp [beqV]
  | .bool a, b => by cases b <;> simp [beqV]
  | .int a, b => by cases b <;> simp [beqV]
  | .str a, b => by cases b <;> simp [beqV]
  | .list a, b => by
      cases b <;> simp [beqV]
      exact beqVL_iff a _
  | .map a, b => by
      cases b <;> simp [beqV]
      exact beqVE_iff a _

theorem beqVL_iff : ∀ a b, beqVL a b = true ↔ a = b
  | [], [] => by simp [beqVL]
  | [], _ :: _ => by simp [beqVL]
  | _ :: _, [] => by simp [beqVL]
  | a :: as, b :: bs => by
      simp [beqVL, beqV_iff a b, beqVL_iff as bs]

theorem beqVE_iff : ∀ a b, beqVE a b = true ↔ a = b
  | [], [] => by simp [beqVE]
  | [], _ :: _ => by simp [beqVE]
  | _ :: _, [] => by simp [beqVE]
  | (k1, v1) :: r1, (k2, v2) :: r2 => by
      simp [beqVE, beqV_iff v1 v2, beqVE_iff r1 r2, and_assoc]

end

instance : DecidableEq Value := fun a b => decidable_of_iff _ (beqV_iff a b)

/-- Lookup of a key in a mapping, as `dict.__getitem__` / `in` does
(first matching entry; entries of a real `dict` have unique keys). -/
def lookupE : Entries → String → Option Value
  | [], _ => Option.none
  | (k, v) :: rest, key => if k = key then some v else lookupE rest key

/-- Assignment `d[key] = value` on a `dict`: replaces the value of an
existing key in place (keeping its position), otherwise appends the new
key at the end, mirroring `dict` insertion order. -/
def setE : Entries → String → Value → Entries
  | [], key, value => [(key, value)]
  | (k, v) :: rest, key, value =>
      if k = key then (k, value) :: rest else (k, v) :: setE rest key value

/-- Keys of a mapping, in insertion order (`iter(dict)`). -/
def keysE (es : Entries) : List String := es.map (·.1)

/-- Whether a value is a mapping (`isinstance(value, Mapping)`). -/
def isMap : Value → Bool
  | .map _ => true
  | _ => false

mutual

/-- Python `==` on plain values (`left[key] != right[key]` in `_merge`
compares with it): numbers compare across `bool`/`int` (`True == 1`),
strings and `None` compare straightforwardly, lists compare pairwise, and
mappings compare as unordered key-to-value tables (length plus per-key
lookup, as `dict.__eq__` does). -/
def pyEq : Value → Value → Bool
  | .none, .none => true
  | .bool a, .bool b => a == b
  | .bool a, .int b => (if a then (1 : Int) else 0) == b
  | .int a, .bool b => a == (if b then (1 : Int) else 0)
  | .int a, .int b => a == b
  | .str a, .str b => a == b
  | .list a, .list b => pyEqList a b
  | .map a, .map b => a.length == b.length && pyEqEntries a b
  | _, _ => false

/-- Pairwise Python `==` on lists (`list.__eq__`). -/
def pyEqList : List Value → List Value → Bool
  | [], [] => true
  | a :: as, b :: bs => pyEq a b && pyEqList as bs
  | _, _ => false

/-- Per-key half of `dict.__eq__`: every entry of the first mapping is
present in the second with a `==`-equal value. -/
def pyEqEntries : Entries → Entries → Bool
  | [], _ => true
  | (k, v) :: rest, other =>
      (match lookupE other k with
       | some w => pyEq v w
       | Option.none => false) && pyEqEntries rest other

end

/-- Conflict policy of `utils._Conflict` (`overwrite = 0`, `error = 1`). -/
inductive Conflict where
  | overwrite
  | error
deriving DecidableEq, Repr

/-- Model of the raised Python exceptions (`confidence/exceptions.py`), plus
`TypeError` (raised by indexing a non-mapping) and an artificial fuel marker
used only to make the reference-resolution loop a total function (real
executions never reach it: each loop iteration either terminates or records
one more distinct successfully-resolved path, and a tree holds finitely
many paths). -/
inductive PyErr where
  | notConfigured (msg key : String) : PyErr
  | mergeConflict (msg key : String) : PyErr
  | refError (msg key : String) : PyErr
  | typeError : PyErr
  | fuelOut : PyErr
deriving DecidableEq, Repr

deriving instance DecidableEq for Except

/-- Dotted join of path steps (`separator.join(path)` with `.`). -/
def joinDots (steps : List String) : String := String.intercalate "." steps

/-- Splitting a character list at every `.`, accumulating the current
segment in reverse; models Python `str.split('.')`, which yields one
(possibly empty) segment more than there are separators. -/
def splitDotsAux (cur : List Char) : List Char → List (List Char)
  | [] => [cur.reverse]
  | c :: rest => if c = '.' then cur.reverse :: splitDotsAux [] rest else splitDotsAux (c :: cur) rest

/-- Python `path.split('.')`, the step list walked by `Configuration.get`:
`""` yields `[""]`, consecutive separators yield empty steps. -/
def splitDots (s : String) : List String := (splitDotsAux [] s.toList).map String.mk

example : splitDots "a.b" = ["a", "b"] := by decide

example : splitDots "" = [""] := by decide

example : splitDots "a..b" = ["a", "", "b"] := by decide

mutual

/-- Size of a value: counts one per tree node plus the length of every
mapping key.  Used to compute sufficient fuel for the merger
and the key splitter. -/
def sizeV : Value → Nat
  | .map es => 1 + sizeE es
  | _ => 1

/-- Size of mapping entries, see `sizeV`. -/
def sizeE : Entries → Nat
  | [] => 0
  | (k, v) :: rest => 1 + k.length + sizeV v + sizeE rest

end

/-- Model of `utils._merge` (aliased `merge_into` in `models.py`), with
explicit fuel decremented on every recursive call standing in for Python's
call stack: the source recursion descends either into the entries of a
strictly smaller right-hand subvalue or into a strictly shorter remaining
entry list, so any fuel above the right-hand mapping's size behaves
identically (see `mergeInto`) and real executions never exhaust it.
Merges `right` into `left` in place, recursing when both sides hold
mappings at the same key; on a leaf conflict (`left[key] != right[key]`,
Python equality) it raises a `MergeConflictError` carrying the dotted
conflict path under the error policy and overwrites under the overwrite
policy; equal values are left alone.  The generator of key origins
produced by the source is consumed and discarded by all callers in the
model's scope, so it is not modelled. -/
def mergeIntoF : Nat → Conflict → Entries → Entries → List String → Except PyErr Entries
  | 0, _, _, _, _ => .error .fuelOut
  | fuel + 1, conflict, left, right, path =>
      match right with
      | [] => .ok left
      | (key, rv) :: rest => do
          let left2 ←
            match lookupE left key with
            | some lv =>
                (match lv, rv with
                 | .map les, .map res => do
                     let merged ← mergeIntoF fuel conflict les res (path ++ [key])
                     pure (setE left key (.map merged))
                 | lv, rv =>
                     if pyEq lv rv then pure left
                     else
                       match conflict with
                       | .error =>
                           .error (.mergeConflict
                             ("merge conflict at " ++ joinDots (path ++ [key]))
                             (joinDots (path ++ [key])))
                       | .overwrite => pure (setE left key rv))
            | Option.none => pure (setE left key rv)
          mergeIntoF fuel conflict left2 rest path

/-- `utils._merge` / `merge_into` proper: runs `mergeIntoF` with ample
fuel (every nested call strictly shrinks the right-hand entries, whose
size bounds the recursion depth). -/
def mergeInto (conflict : Conflict) (left right : Entries) (path : List String) :
    Except PyErr Entries :=
  mergeIntoF (sizeE right + 1) conflict left right path

example : mergeInto .overwrite [("a", .int 1)] [("a", .int 2), ("b", .int 3)] []
    = .ok [("a", .int 2), ("b", .int 3)] := by decide

example : mergeInto .error [("a", .int 1)] [("a", .int 2)] []
    = .error (.mergeConflict "merge conflict at a" "a") := by decide

example : mergeInto .error [("a", .map [("b", .int 1)])] [("a", .map [("c", .int 2)])] []
    = .ok [("a", .map [("b", .int 1), ("c", .int 2)])] := by decide

/-- Model of `key.split(separator, 1)` restricted to the case used by
`_split_keys` (`separator in key`): the part before the first `.` and the
remainder, or nothing when the key holds no separator. -/
def splitDot1L : List Char → Option (List Char × List Char)
  | [] => Option.none
  | c :: rest =>
      if c = '.' then some ([], rest)
      else (splitDot1L rest).map fun p => (c :: p.1, p.2)

/-- String-level wrapper for `splitDot1L`. -/
def splitDot1 (s : String) : Option (String × String) :=
  (splitDot1L s.toList).map fun p => (String.mk p.1, String.mk p.2)

example : splitDot1 "ns.b.c" = some ("ns", "b.c") := by decide

example : splitDot1 "plain" = Option.none := by decide

/-!
Model of `utils._split_keys`, split into its three steps with explicit
fuel (decremented on every recursive call) standing in for Python's call
stack: the source recursion descends into strictly smaller subvalues,
strictly shorter key remainders or a strictly shorter remaining entry
list, so any sufficiently large fuel (see `split_keys`) computes the same
result and real executions never exhaust it.  The collision warning for
keys matching `Configuration` member names is a non-semantic warning and
is not modelled; keys in this model are always strings, so the
`ValueError` branch for non-string keys is unreachable.
-/

mutual

/-- The value-preprocessing step of an iteration of `_split_keys`: a
mapping value is recursively split, anything else is kept as-is. -/
def splitValueF : Nat → Value → Except PyErr Value
  | 0, _ => .error .fuelOut
  | f + 1, .map es => do
      let es2 ← splitEntriesF f es []
      pure (Value.map es2)
  | _ + 1, v => pure v

/-- The dotted-key step of an iteration of `_split_keys`: a key containing
the separator is split at its first `.`, and the remainder keyed over the
value becomes a nested singleton mapping, itself recursively split. -/
def splitKvF : Nat → String → Value → Except PyErr (String × Value)
  | 0, _, _ => .error .fuelOut
  | f + 1, key, v1 =>
      match splitDot1 key with
      | some (k, restKey) => do
          let m2 ← splitEntriesF f [(restKey, v1)] []
          pure (k, Value.map m2)
      | Option.none => pure (key, v1)

/-- The `for key, value in mapping.items()` loop of `_split_keys`,
accumulating into `result`: each preprocessed entry is merged into the
accumulated result as a single-entry mapping under the *error* conflict
policy. -/
def splitEntriesF : Nat → Entries → Entries → Except PyErr Entries
  | 0, _, _ => .error .fuelOut
  | _ + 1, [], result => .ok result
  | f + 1, (key, value) :: rest, result => do
      let v1 ← splitValueF f value
      let kv ← splitKvF f key v1
      let result2 ← mergeInto .error result [kv] []
      splitEntriesF f rest result2

end

/-- Model of `utils._split_keys` proper: runs the entry loop on an empty
accumulator with ample fuel (the recursion depth of the source is bounded
by the input size even accounting for the re-splitting of already-split
values, whose size can grow by at most one per separator removed; the
square comfortably dominates that). -/
def split_keys (m : Entries) : Except PyErr Entries :=
  splitEntriesF ((sizeE m + 1) * (sizeE m + 1)) m []

example : split_keys [("a", .int 1), ("ns.b", .int 2)]
    = .ok [("a", .int 1), ("ns", .map [("b", .int 2)])] := by decide

example : split_keys [("a.b.c", .int 1)]
    = .ok [("a", .map [("b", .map [("c", .int 1)])])] := by decide

example : split_keys [("a.b", .int 1), ("a", .map [("c", .int 2)])]
    = .ok [("a", .map [("b", .int 1), ("c", .int 2)])] := by decide

example : split_keys [("a.b", .int 1), ("a", .map [("b", .int 2)])]
    = .error (.mergeConflict "merge conflict at a.b" "a.b") := by decide

mutual

/-- Canonical (already-split) values: mappings are canonical entry lists,
everything else (scalars and lists, into which the splitter does not
descend) is canonical as-is. -/
def canonV : Value → Bool
  | .map es => canonE es
  | _ => true

/-- Canonical entry lists: every key is separator-free and unique, every
value canonical.  `split_keys` always produces canonical entries. -/
def canonE : Entries → Bool
  | [] => true
  | (k, v) :: rest =>
      (splitDot1 k).isNone && (lookupE rest k).isNone && canonV v && canonE rest

end

/-- Walk a dotted path (given as its list of steps) through a value:
yields the stored value, or nothing when a step is missing or a
non-mapping intermediate is hit.  Mirrors the step loop of
`Configuration.get` shape for shape, making the two easy to relate. -/
def findPathV : Value → List String → Option Value
  | v, [] => some v
  | .map es, step :: rest =>
      (match lookupE es step with
       | some w => findPathV w rest
       | Option.none => Option.none)
  | _, _ :: _ => Option.none

/-- Walk a dotted path through mapping entries.  This is the
specification-side notion of a tree "containing a value at a key". -/
def findPathE (es : Entries) (steps : List String) : Option Value :=
  findPathV (.map es) steps

example : findPathE [("a", .map [("b", .int 7)])] ["a", "b"] = some (.int 7) := by decide

example : findPathE [("a", .map [("b", .int 7)])] ["a", "c"] = Option.none := by decide

/-- Outcome of the step loop in `Configuration.get`: either the value, a
`KeyError` from a missing mapping key (carrying `steps_taken`, the steps
walked up to and including the missing one), or a `TypeError` from
indexing a non-mapping intermediate value with a string step (Python
raises `TypeError` for `int[str]`, `str[str]`, `list[str]` alike). -/
inductive WalkErr where
  | missing (steps : List String) : WalkErr
  | typeError : WalkErr
deriving DecidableEq, Repr

/-- The `for step in path.split('.')` loop of `Configuration.get`:
`value = value[step]` step by step, accumulating `steps_taken`. -/
def walkSteps : Value → List String → List String → Except WalkErr Value
  | v, [], _ => .ok v
  | .map es, step :: rest, taken =>
      (match lookupE es step with
       | some v => walkSteps v rest (taken ++ [step])
       | Option.none => .error (.missing (taken ++ [step])))
  | _, _ :: _, _ => .error .typeError

/-- A value as returned to Python callers by `Configuration.get` /
`ConfigurationSequence.__getitem__`: a mapping wrapped into a
`Configuration` (via `_wrap`, sharing the root used for reference
resolution), a sequence wrapped into a `ConfigurationSequence` (bound to
the root), or a plain value.  The missing-policy carried by a wrapped
`Configuration` is copied from its parent and read by none of the
operations modelled here, so it is not a field. -/
inductive PyObj where
  | cfg (src root : Entries) : PyObj
  | seq (xs : List Value) (root : Entries) : PyObj
  | raw (v : Value) : PyObj
deriving DecidableEq, Repr

/-- The `default` argument of `Configuration.get`: either the `NoDefault`
sentinel (raise on a missing key) or an arbitrary object to return. -/
inductive Dflt where
  | noDflt : Dflt
  | dflt (o : PyObj) : Dflt
deriving DecidableEq, Repr

/-- Decimal digit characters, used to model `str(int)`. -/
def digitChar : Nat → Char
  | 0 => '0'
  | 1 => '1'
  | 2 => '2'
  | 3 => '3'
  | 4 => '4'
  | 5 => '5'
  | 6 => '6'
  | 7 => '7'
  | 8 => '8'
  | _ => '9'

/-- Decimal digits of a natural number, most significant first; the fuel
(any value above the number itself suffices, see `natDigits`) only makes
the division recursion structural. -/
def digitsAux : Nat → Nat → List Char
  | 0, _ => []
  | fuel + 1, n => if n < 10 then [digitChar n] else digitsAux fuel (n / 10) ++ [digitChar (n % 10)]

/-- Decimal digits of a natural number (`str` of a non-negative int). -/
def natDigits (n : Nat) : List Char := digitsAux (n + 1) n

example : String.mk (natDigits 2026) = "2026" := by decide

/-- Python `str(int)`: decimal rendering with a sign for negatives. -/
def intStr (n : Int) : String :=
  if n < 0 then "-" ++ String.mk (natDigits n.natAbs) else String.mk (natDigits n.toNat)

mutual

/-- Python `repr` on plain values: `None`, `True`/`False`, decimal ints,
single-quoted strings (escaping of quotes inside the string is not
modelled; the values exercised here contain none), bracketed lists and
braced dicts. -/
def pyReprV : Value → String
  | .none => "None"
  | .bool b => if b then "True" else "False"
  | .int n => intStr n
  | .str s => "'" ++ s ++ "'"
  | .list xs => "[" ++ String.intercalate ", " (pyReprL xs) ++ "]"
  | .map es => "\x7b" ++ String.intercalate ", " (pyReprE es) ++ "\x7d"

/-- Element representations of a list value. -/
def pyReprL : List Value → List String
  | [] => []
  | v :: rest => pyReprV v :: pyReprL rest

/-- Entry representations of a dict value. -/
def pyReprE : Entries → List String
  | [] => []
  | (k, v) :: rest => ("'" ++ k ++ "': " ++ pyReprV v) :: pyReprE rest

end

/-- Python `str` on plain values: identity on strings, `repr` otherwise
(int, bool, `None`, list, dict all render as their repr). -/
def pyStrV : Value → String
  | .str s => s
  | v => pyReprV v

/-- Model of `models._repr_value`: mappings render as their key list,
sequences as `sequence([...])`, anything else as its builtin repr. -/
def reprValue : Value → String
  | .map es => "mapping(keys=[" ++ String.intercalate ", " ((keysE es).map fun k => "'" ++ k ++ "'") ++ "])"
  | .list _ => "sequence([...])"
  | v => pyReprV v

/-- Python `str` of an object returned by a lookup, as used by the
f-string splice in `Configuration._resolve`.  A `Configuration` is never
rendered there (the namespace check fires first), but `__repr__` of the
wrapper classes is modelled for totality; a `ConfigurationSequence`
renders via its `__repr__`. -/
def pyStrObj : PyObj → String
  | .raw v => pyStrV v
  | .seq xs _ =>
      "confidence.models.ConfigurationSequence([" ++
        String.intercalate ", " (xs.map reprValue) ++ "])"
  | .cfg src _ =>
      "confidence.models.Configuration(keys=[" ++
        String.intercalate ", " ((keysE src).map fun k => "'" ++ k ++ "'") ++ "])"

/-- Scan for the interior of a reference token after an opening `${`: the
interior runs to the first `}` and may not contain `$`, `{` or `}` and may
not be empty (the pattern is `\x24\x7b(?P<path>[^\x24\x7b\x7d]+?)\x7d`;
non-greedy repetition coincides with "up to the first closing brace" since
the interior excludes braces).  Returns the interior and the characters
after the closing brace. -/
def grabRefPath (acc : List Char) : List Char → Option (List Char × List Char)
  | [] => Option.none
  | c :: rest =>
      if c = '}' then (if acc.isEmpty then Option.none else some (acc.reverse, rest))
      else if c = '$' ∨ c = '{' then Option.none
      else grabRefPath (c :: acc) rest

/-- Leftmost match of the reference pattern `_reference_pattern` in a
character list: returns the characters before the match, the reference
path (the interior of the braces) and the characters after the match, or
nothing when the pattern does not occur (`re.search` returning `None`). -/
def findRefL : List Char → Option (List Char × List Char × List Char)
  | [] => Option.none
  | c :: rest =>
      if c = '$' then
        match rest with
        | '{' :: rest2 =>
            (match grabRefPath [] rest2 with
             | some (path, after) => some ([], path, after)
             | Option.none => (findRefL rest).map fun t => (c :: t.1, t.2.1, t.2.2))
        | _ => (findRefL rest).map fun t => (c :: t.1, t.2.1, t.2.2)
      else (findRefL rest).map fun t => (c :: t.1, t.2.1, t.2.2)

example : findRefL "pre $\x7bkey.path\x7d post".toList
    = some ("pre ".toList, "key.path".toList, " post".toList) := by decide

example : findRefL "no reference here".toList = Option.none := by decide

example : findRefL "unmatched $\x7bopen".toList = Option.none := by decide

example : findRefL "$\x7ba$\x7bb\x7d".toList
    = some ("$\x7ba".toList, "b".toList, []) := by decide

/-- The common body of `Configuration.get` after a successful walk, with
reference resolution disabled (`resolve_references=False`): a mapping is
wrapped into a `Configuration` sharing the caller's root, a non-string
sequence into a `ConfigurationSequence` bound to the root, and any other
value (strings included) is returned as-is.  `as_type` is `None` in every
call modelled here, so that branch is skipped. -/
def wrapNR (root : Entries) (v : Value) : PyObj :=
  match v with
  | .map es => .cfg es root
  | .list xs => .seq xs root
  | v => .raw v

/-- `Configuration.get(path, default, resolve_references=False)` on a
configuration with source tree `src` and root tree `root`: walks the
dotted path through `src`; a `KeyError` becomes the default (or a
`NotConfiguredError` whose key is the dotted `steps_taken` when the
default is `NoDefault`); a `TypeError` propagates; a found value is
wrapped but references are not resolved. -/
def getNR (src root : Entries) (path : String) (default : Dflt) : Except PyErr PyObj :=
  match walkSteps (.map src) (splitDots path) [] with
  | .error (.missing steps) =>
      (match default with
       | .noDflt =>
           .error (.notConfigured ("no configuration for key " ++ joinDots steps) (joinDots steps))
       | .dflt o => .ok o)
  | .error .typeError => .error .typeError
  | .ok v => .ok (wrapNR root v)

/-- The `while` loop of `Configuration._resolve`, with explicit fuel
decremented once per iteration.  Each iteration either terminates the
loop, raises, or resolves one more path not seen before through
`self._root.get(path, default=NoDefault, resolve_references=False)`; only
finitely many dotted paths resolve successfully in a finite root tree
(each walks to a distinct node), so any fuel above that count plus one
behaves identically and real executions never exhaust it (`.fuelOut` is
unreachable from `resolveStr`).  A `NotConfiguredError` from the inner
lookup is re-raised as the "unable to resolve referenced key" reference
error carrying the inner error's key; a reference to a value already in
`references` raises the "cannot resolve recursive reference" error; a
match embedded in surrounding text must not resolve to a `Configuration`
("cannot insert namespace") and is otherwise spliced into the text as its
`str` form. -/
def resolveLoop (root : Entries) : Nat → PyObj → List String → Except PyErr PyObj
  | 0, _, _ => .error .fuelOut
  | fuel + 1, value, references =>
      match value with
      | .raw (.str s) =>
          (match findRefL s.toList with
           | Option.none => .ok value
           | some (pre, pathL, post) =>
               let path := String.mk pathL
               if path ∈ references then
                 .error (.refError ("cannot resolve recursive reference " ++ path) path)
               else
                 match getNR root root path .noDflt with
                 | .error (.notConfigured _ key) =>
                     .error (.refError ("unable to resolve referenced key " ++ path) key)
                 | .error e => .error e
                 | .ok reference =>
                     if pre.isEmpty && post.isEmpty then
                       resolveLoop root fuel reference (path :: references)
                     else
                       match reference with
                       | .cfg _ _ =>
                           .error (.refError ("cannot insert namespace at " ++ path ++
                             " into referring value") path)
                       | _ =>
                           resolveLoop root fuel
                             (.raw (.str (String.mk (pre ++ (pyStrObj reference).toList ++ post))))
                             (path :: references))
      | _ => .ok value

/-- `Configuration._resolve(value)` on a string value, resolving against
the root tree: runs the resolution loop with ample fuel (see
`resolveLoop`). -/
def resolveStr (root : Entries) (s : String) : Except PyErr PyObj :=
  resolveLoop root (sizeE root + 2) (.raw (.str s)) []

/-- `Configuration.get(path, default)` with reference resolution enabled
(the default), on a configuration with source tree `src` and root tree
`root`: as `getNR`, but a string value found by the walk is passed through
`Configuration._resolve`.  A `ConfiguredReferenceError` raised there
propagates to the caller unmodified (the dedicated `except` clause
re-raises it before the `KeyError` handler can substitute a default). -/
def getO (src root : Entries) (path : String) (default : Dflt) : Except PyErr PyObj :=
  match walkSteps (.map src) (splitDots path) [] with
  | .error (.missing steps) =>
      (match default with
       | .noDflt =>
           .error (.notConfigured ("no configuration for key " ++ joinDots steps) (joinDots steps))
       | .dflt o => .ok o)
  | .error .typeError => .error .typeError
  | .ok v =>
      match v with
      | .str s => resolveStr root s
      | v => .ok (wrapNR root v)

/-- `Configuration.get(path)` with no further arguments: the `default`
parameter of `Configuration.get` defaults to `None` (models.py line 160),
so a missing key yields `None`. -/
def get1 (src root : Entries) (path : String) : Except PyErr PyObj :=
  getO src root path (.dflt (.raw .none))

/-- `Configuration.__getitem__`: `get(item, default=NoDefault)`. -/
def getItem (src root : Entries) (path : String) : Except PyErr PyObj :=
  getO src root path .noDflt

/-- `ConfigurationSequence.__getitem__` with an integer index: delegates
to the underlying sequence, wraps a mapping element via the root, wraps a
sequence element into another view on the same root, and resolves
references in a string element against the root.  (Negative and slice
indexing delegate to the list in the same way and are not needed by any
claim.) -/
def seqGetItem (xs : List Value) (root : Entries) (i : Nat) : Except PyErr PyObj :=
  match xs[i]? with
  | Option.none => .error .typeError
  | some (.map es) => .ok (.cfg es root)
  | some (.list ys) => .ok (.seq ys root)
  | some (.str s) => resolveStr root s
  | some v => .ok (.raw v)

/-- The missing-value policy of a `Configuration` (`Missing.SILENT`,
`Missing.ERROR`, or an arbitrary default value).  It only affects
attribute access (`__getattr__`), which no claim exercises; it is carried
to show that the modelled operations are independent of it. -/
inductive MissingPolicy where
  | silent : MissingPolicy
  | errorOut : MissingPolicy
  | custom (v : Value) : MissingPolicy
deriving DecidableEq, Repr

/-- A `Configuration`: its source tree, the source tree of its root (equal
to `src` for a freshly constructed top-level configuration) and its
missing-value policy. -/
structure Config where
  src : Entries
  root : Entries
  missing : MissingPolicy
deriving DecidableEq, Repr

/-- The source-merging loop of `Configuration.__init__`: every falsy
(empty) source is skipped, every other source is key-split (`unwrap` is
the identity on the plain mappings modelled here, as `Value` holds no
wrapper objects) and merged into the accumulated `_source` under the
overwrite policy. -/
def initSources : List Entries → Entries → Except PyErr Entries
  | [], acc => .ok acc
  | s :: rest, acc =>
      if s.isEmpty then initSources rest acc
      else do
        let t ← split_keys s
        let acc2 ← mergeInto .overwrite acc t []
        initSources rest acc2

/-- `Configuration(*sources, missing=...)`: merge the sources left to
right into an initially empty tree; the result is its own root. -/
def initConfig (sources : List Entries) (missing : MissingPolicy) : Except PyErr Config :=
  (initSources sources []).map fun es => ⟨es, es, missing⟩

example : initConfig [[("a", .int 1), ("ns.b", .int 2)], [("ns.b", .int 3), ("c", .int 4)]] .silent
    = .ok ⟨[("a", .int 1), ("ns", .map [("b", .int 3)]), ("c", .int 4)],
           [("a", .int 1), ("ns", .map [("b", .int 3)]), ("c", .int 4)], .silent⟩ := by decide

example : getO [("key", .str "string"), ("ref", .str "$\x7bkey\x7d")]
    [("key", .str "string"), ("ref", .str "$\x7bkey\x7d")] "ref" .noDflt
    = .ok (.raw (.str "string")) := by decide

example : getO [("key", .str "val"), ("t", .str "pre $\x7bkey\x7d post")]
    [("key", .str "val"), ("t", .str "pre $\x7bkey\x7d post")] "t" .noDflt
    = .ok (.raw (.str "pre val post")) := by decide

example : getO [("a", .str "$\x7ba\x7d")] [("a", .str "$\x7ba\x7d")] "a" .noDflt
    = .error (.refError "cannot resolve recursive reference a" "a") := by decide

example : getO [("a", .str "$\x7bb\x7d"), ("b", .str "$\x7ba\x7d")]
    [("a", .str "$\x7bb\x7d"), ("b", .str "$\x7ba\x7d")] "a" .noDflt
    = .error (.refError "cannot resolve recursive reference b" "b") := by decide

example : getO [("a", .int 5), ("t", .str "x $\x7ba\x7d y $\x7ba\x7d z")]
    [("a", .int 5), ("t", .str "x $\x7ba\x7d y $\x7ba\x7d z")] "t" .noDflt
    = .error (.refError "cannot resolve recursive reference a" "a") := by decide

/-- Lookup among already-wrapped dict items (`found = other.get(key)`
inside `dict.__eq__`). -/
def lookupPO : List (String × PyObj) → String → Option PyObj
  | [], _ => Option.none
  | (k, v) :: rest, key => if k = key then some v else lookupPO rest key

/-- The loop of `dict(self)`: iterate the keys of the source tree in
order, fetching each value through `Configuration.__getitem__` (which
wraps mappings and sequences and resolves references, and whose errors
propagate). -/
def dictItemsGo (t root : Entries) : Entries → Except PyErr (List (String × PyObj))
  | [] => .ok []
  | (k, _) :: rest => do
      let o ← getO t root k .noDflt
      let tail ← dictItemsGo t root rest
      pure ((k, o) :: tail)

/-- `dict(self)` for a `Configuration` with source `t` and root `root`. -/
def dictItems (t root : Entries) : Except PyErr (List (String × PyObj)) :=
  dictItemsGo t root t

mutual

/-- Python `==` between objects returned by configuration lookups,
following the class dispatch of the source: two `Configuration`s (or a
`Configuration` and a plain mapping, in either order) compare via the
inherited `Mapping.__eq__`, i.e. `isinstance(other, Mapping) and
dict(self) == dict(other)`, where `dict(self)` wraps and resolves each
value (`dictItems`) and `dict.__eq__` checks equal length and per-key
`==`-equality of values; two plain values compare by plain Python `==`;
a `ConfigurationSequence` defines no `__eq__`, so comparing it with
anything other than the identical object falls back to `object` identity
and yields `False` (the wrappers compared here are freshly created, hence
never identical); every other mixed pairing is unequal (`isinstance`
check fails on one side, reflected comparison on the other).  The fuel is
decremented on every recursive step; resolution of references inside
`dictItems` can reach arbitrary parts of the root tree, so genuinely
cyclic reference structures would recurse forever in Python
(`RecursionError`), which the fuel marker stands in for. -/
def pyObjEqF : Nat → PyObj → PyObj → Except PyErr Bool
  | 0, _, _ => .error .fuelOut
  | fuel + 1, .cfg t1 r1, .cfg t2 r2 => do
      let d1 ← dictItems t1 r1
      let d2 ← dictItems t2 r2
      if d1.length = d2.length then allEntriesEqF fuel d1 d2 else pure false
  | fuel + 1, .cfg t1 r1, .raw (.map d) => do
      let d1 ← dictItems t1 r1
      let d2 := d.map fun e => (e.1, PyObj.raw e.2)
      if d1.length = d2.length then allEntriesEqF fuel d1 d2 else pure false
  | fuel + 1, .raw (.map d), .cfg t2 r2 => do
      let d1 := d.map fun e => (e.1, PyObj.raw e.2)
      let d2 ← dictItems t2 r2
      if d1.length = d2.length then allEntriesEqF fuel d1 d2 else pure false
  | _ + 1, .raw v1, .raw v2 => .ok (pyEq v1 v2)
  | _ + 1, _, _ => .ok false

/-- The per-key loop of `dict.__eq__`: every key of the first item list
must be present in the second with an `==`-equal value. -/
def allEntriesEqF : Nat → List (String × PyObj) → List (String × PyObj) → Except PyErr Bool
  | 0, _, _ => .error .fuelOut
  | _ + 1, [], _ => .ok true
  | fuel + 1, (k, v1) :: rest, other =>
      match lookupPO other k with
      | Option.none => .ok false
      | some v2 => do
          let b ← pyObjEqF fuel v1 v2
          if b then allEntriesEqF fuel rest other else pure false

end

/-- Python `==` between two `Configuration`s (`Mapping.__eq__`), with
ample fuel for the non-cyclic trees compared by the claims (see
`pyObjEqF`). -/
def cfgEq (c1 c2 : Config) : Except PyErr Bool :=
  pyObjEqF (sizeE c1.src + sizeE c2.src + 2) (.cfg c1.src c1.root) (.cfg c2.src c2.root)

/-- Python `==` between a `Configuration` and a plain mapping. -/
def cfgEqMap (c1 : Config) (d : Entries) : Except PyErr Bool :=
  pyObjEqF (sizeE c1.src + sizeE d + 2) (.cfg c1.src c1.root) (.raw (.map d))

example : cfgEq ⟨[("a", .int 1)], [("a", .int 1)], .silent⟩
    ⟨[("a", .int 1)], [("a", .int 1)], .errorOut⟩ = .ok true := by decide

example : cfgEq ⟨[("a", .int 1)], [("a", .int 1)], .silent⟩
    ⟨[("a", .int 2)], [("a", .int 2)], .silent⟩ = .ok false := by decide

example : cfgEq ⟨[("a", .list [.int 1])], [("a", .list [.int 1])], .silent⟩
    ⟨[("a", .list [.int 1])], [("a", .list [.int 1])], .silent⟩ = .ok false := by decide

mutual

/-- Values for which lookup wrapping and resolution are inert: scalars,
strings without a reference token, and nested mappings of such values
with separator-free, unique keys; no sequences.  These are the trees for
which `Mapping.__eq__` coincides with plain equality of the unwrapped
trees. -/
def simpleV : Value → Bool
  | .none => true
  | .bool _ => true
  | .int _ => true
  | .str s => (findRefL s.toList).isNone
  | .list _ => false
  | .map es => simpleE es

/-- Entry lists of simple values with separator-free, unique keys. -/
def simpleE : Entries → Bool
  | [] => true
  | (k, v) :: rest =>
      (splitDot1 k).isNone && (lookupE rest k).isNone && simpleV v && simpleE rest

end

/-!
Walk lemmas: how the step loop of `Configuration.get` relates to the
specification-side tree walk `findPathV` / `findPathE`.
-/

theorem walkV_typeErr : ∀ (i : Nat) (steps : List String) (v0 w : Value)
    (taken : List String), i < steps.length → findPathV v0 (steps.take i) = some w →
    isMap w = false → walkSteps v0 steps taken = .error .typeError := by
  intro i
  induction i with
  | zero =>
      intro steps v0 w taken h1 h2 h3
      simp [findPathV] at h2
      subst h2
      cases steps with
      | nil => simp at h1
      | cons s rest => cases v0 <;> simp_all [walkSteps, isMap]
  | succ j ih =>
      intro steps v0 w taken h1 h2 h3
      cases steps with
      | nil => simp at h1
      | cons s rest =>
          simp only [List.take_succ_cons] at h2
          cases v0 with
          | map es =>
              cases hl : lookupE es s with
              | none => simp [findPathV, hl] at h2
              | some w2 =>
                  simp only [findPathV, hl] at h2
                  have hj : j < rest.length := by simpa using h1
                  simpa [walkSteps, hl] using ih rest w2 w (taken ++ [s]) hj h2 h3
          | none => simp [findPathV] at h2
          | bool b => simp [findPathV] at h2
          | int n => simp [findPathV] at h2
          | str s2 => simp [findPathV] at h2
          | list xs => simp [findPathV] at h2

theorem walkV_missing : ∀ (i : Nat) (steps : List String) (v0 : Value) (m : Entries)
    (st : String) (taken : List String), findPathV v0 (steps.take i) = some (.map m) →
    steps[i]? = some st → lookupE m st = Option.none →
    walkSteps v0 steps taken = .error (.missing (taken ++ steps.take (i + 1))) := by
  intro i
  induction i with
  | zero =>
      intro steps v0 m st taken h1 h2 h3
      simp [findPathV] at h1
      subst h1
      cases steps with
      | nil => simp at h2
      | cons s rest =>
          simp at h2
          subst h2
          simp [walkSteps, h3]
  | succ j ih =>
      intro steps v0 m st taken h1 h2 h3
      cases steps with
      | nil => simp at h2
      | cons s rest =>
          simp only [List.take_succ_cons] at h1
          cases v0 with
          | map es =>
              cases hl : lookupE es s with
              | none => simp [findPathV, hl] at h1
              | some w2 =>
                  simp only [findPathV, hl] at h1
                  have := ih rest w2 m st (taken ++ [s]) h1 (by simpa using h2) h3
                  simp only [walkSteps, hl]
                  rw [this]
                  simp
          | none => simp [findPathV] at h1
          | bool b => simp [findPathV] at h1
          | int n => simp [findPathV] at h1
          | str s2 => simp [findPathV] at h1
          | list xs => simp [findPathV] at h1

/-- C10: for every Configuration and dotted path that walks through an
intermediate value that exists but is not a mapping, `get` raises an
unhandled `TypeError` rather than a not-configured error, and a
caller-supplied default is not returned (whatever the default argument,
including an explicit one: only `KeyError` is converted into default
substitution). -/
theorem C10_typeError_not_defaulted (t r : Entries) (path : String) (d : Dflt)
    (i : Nat) (v : Value)
    (h1 : i < (splitDots path).length)
    (h2 : findPathE t ((splitDots path).take i) = some v)
    (h3 : isMap v = false) :
    getO t r path d = .error .typeError := by
  have hw := walkV_typeErr i (splitDots path) (.map t) v []
    h1 (by simpa [findPathE] using h2) h3
  simp [getO, hw]

theorem C10_typeError_not_defaulted_witness :
    getO [("a", .int 5)] [("a", .int 5)] "a.b" (.dflt (.raw .none)) = .error .typeError :=
  C10_typeError_not_defaulted [("a", .int 5)] [("a", .int 5)] "a.b" (.dflt (.raw .none))
    1 (.int 5) (by decide) (by decide) (by decide)

/-- C1 counterexample: calling `get(path)` without supplying a default does
*not* raise for a missing path; the `default` parameter of
`Configuration.get` defaults to `None`, which is silently returned
(`Configuration({}).get('a')` is `None`; `tests/test_dict.py::test_empty`
asserts exactly this). -/
theorem C1_counterexample_get_without_default_returns_none :
    get1 [] [] "a" = .ok (.raw .none) := by decide

/-- C1 (amended): for every Configuration and dotted path whose walk first
fails at step `i`, calling `get` with `default=NoDefault` — as item access
does — raises a structured not-configured error whose key is the full
dotted path attempted so far (the steps walked up to and including the
missing one, not the full requested path); with any supplied default
(including the implicit `None` of a plain `get(path)` call) that default
is returned instead. -/
theorem C1_missing_key_error_and_default (t r : Entries) (path : String) (i : Nat)
    (m : Entries) (st : String) (o : PyObj)
    (h1 : findPathE t ((splitDots path).take i) = some (.map m))
    (h2 : (splitDots path)[i]? = some st)
    (h3 : lookupE m st = Option.none) :
    getItem t r path = .error (.notConfigured
        ("no configuration for key " ++ joinDots ((splitDots path).take (i + 1)))
        (joinDots ((splitDots path).take (i + 1))))
      ∧ getO t r path (.dflt o) = .ok o := by
  have hw := walkV_missing i (splitDots path) (.map t) m st []
    (by simpa [findPathE] using h1) h2 h3
  constructor
  · simp [getItem, getO, hw]
  · simp [getO, hw]

theorem C1_missing_key_error_and_default_witness :
    getItem [("a", .map [("b", .int 1)])] [] "a.c.d"
        = .error (.notConfigured "no configuration for key a.c" "a.c")
      ∧ getO [("a", .map [("b", .int 1)])] [] "a.c.d" (.dflt (.raw (.int 9)))
        = .ok (.raw (.int 9)) := by
  have h := C1_missing_key_error_and_default [("a", .map [("b", .int 1)])] [] "a.c.d"
    1 [("b", .int 1)] "c" (.raw (.int 9)) (by decide) (by decide) (by decide)
  simpa using h

/-!
Reference-resolution lemmas: locating a reference token in a string value
and tracing the resolution loop.
-/

@[simp] theorem stringMk_toList (s : String) : String.mk s.toList = s := rfl

@[simp] theorem toList_stringMk (l : List Char) : (String.mk l).toList = l := rfl

theorem walkV_ok : ∀ (steps : List String) (v0 w : Value) (taken : List String),
    findPathV v0 steps = some w → walkSteps v0 steps taken = .ok w := by
  intro steps
  induction steps with
  | nil =>
      intro v0 w taken h
      simp [findPathV] at h
      simp [walkSteps, h]
  | cons s rest ih =>
      intro v0 w taken h
      cases v0 with
      | map es =>
          cases hl : lookupE es s with
          | none => simp [findPathV, hl] at h
          | some w2 =>
              simp only [findPathV, hl] at h
              simpa [walkSteps, hl] using ih w2 w (taken ++ [s]) h
      | none => simp [findPathV] at h
      | bool b => simp [findPathV] at h
      | int n => simp [findPathV] at h
      | str s2 => simp [findPathV] at h
      | list xs => simp [findPathV] at h

theorem getNR_of_walk_ok (src root : Entries) (path : String) (d : Dflt) (v : Value)
    (h : findPathE src (splitDots path) = some v) :
    getNR src root path d = .ok (wrapNR root v) := by
  have hw := walkV_ok (splitDots path) (.map src) v [] h
  simp [getNR, hw]

theorem getNR_of_walk_missing (src root : Entries) (path : String) (i : Nat)
    (m : Entries) (st : String)
    (h1 : findPathE src ((splitDots path).take i) = some (.map m))
    (h2 : (splitDots path)[i]? = some st)
    (h3 : lookupE m st = Option.none) :
    getNR src root path .noDflt = .error (.notConfigured
      ("no configuration for key " ++ joinDots ((splitDots path).take (i + 1)))
      (joinDots ((splitDots path).take (i + 1)))) := by
  have hw := walkV_missing i (splitDots path) (.map src) m st []
    (by simpa [findPathE] using h1) h2 h3
  simp [getNR, hw]

theorem grabRefPath_app : ∀ (pL acc postL : List Char),
    (∀ c ∈ pL, c ≠ '$' ∧ c ≠ '{' ∧ c ≠ '}') → (acc ≠ [] ∨ pL ≠ []) →
    grabRefPath acc (pL ++ '}' :: postL) = some (acc.reverse ++ pL, postL) := by
  intro pL
  induction pL with
  | nil =>
      intro acc postL _ hne
      have hacc : acc ≠ [] := by
        rcases hne with h | h
        · exact h
        · simp at h
      simp [grabRefPath, hacc]
  | cons c pL ih =>
      intro acc postL hchars hne
      obtain ⟨h1, h2, h3⟩ := hchars c (by simp)
      have step : grabRefPath acc ((c :: pL) ++ '}' :: postL)
          = grabRefPath (c :: acc) (pL ++ '}' :: postL) := by
        simp [grabRefPath, h1, h2, h3]
      rw [step, ih (c :: acc) postL (fun d hd => hchars d (by simp [hd])) (Or.inl (by simp))]
      simp

theorem findRefL_app : ∀ (preL pL postL : List Char),
    '$' ∉ preL → (∀ c ∈ pL, c ≠ '$' ∧ c ≠ '{' ∧ c ≠ '}') → pL ≠ [] →
    findRefL (preL ++ '$' :: '{' :: pL ++ '}' :: postL) = some (preL, pL, postL) := by
  intro preL
  induction preL with
  | nil =>
      intro pL postL _ hchars hne
      have hg := grabRefPath_app pL [] postL hchars (Or.inr hne)
      simp [findRefL, hg]
  | cons c preL ih =>
      intro pL postL hpre hchars hne
      have hc : c ≠ '$' := fun h => hpre (by simp [h])
      have hpre2 : '$' ∉ preL := fun h => hpre (by simp [h])
      have hshape : ((c :: preL) ++ '$' :: '{' :: pL ++ '}' :: postL)
          = c :: (preL ++ '$' :: '{' :: pL ++ '}' :: postL) := rfl
      rw [hshape]
      simp only [findRefL, if_neg hc]
      rw [ih pL postL hpre2 hchars hne]
      rfl

theorem findRefL_none : ∀ (l : List Char), '$' ∉ l → findRefL l = Option.none := by
  intro l
  induction l with
  | nil => intro _; simp [findRefL]
  | cons c rest ih =>
      intro h
      have hc : c ≠ '$' := fun hh => h (by simp [hh])
      have hr := ih (fun hh => h (by simp [hh]))
      simp [findRefL, hc, hr]

@[simp] theorem toList_append : ∀ (a b : String), (a ++ b).toList = a.toList ++ b.toList := by
  intro a b
  cases a
  cases b
  rfl

theorem dollar_ne_digitChar : ∀ d, digitChar d ≠ '$' := by
  intro d
  unfold digitChar
  split <;> decide

theorem digitsAux_noDollar : ∀ (fuel n : Nat), '$' ∉ digitsAux fuel n := by
  intro fuel
  induction fuel with
  | zero => intro n; simp [digitsAux]
  | succ f ih =>
      intro n
      by_cases h : n < 10
      · simp [digitsAux, h]
        exact fun hh => dollar_ne_digitChar n hh.symm
      · simp [digitsAux, h]
        exact ⟨ih (n / 10), fun hh => dollar_ne_digitChar (n % 10) hh.symm⟩

theorem natDigits_noDollar (n : Nat) : '$' ∉ natDigits n := digitsAux_noDollar _ _

theorem intStr_noDollar (n : Int) : '$' ∉ (intStr n).toList := by
  unfold intStr
  split
  · intro hmem
    rw [toList_append] at hmem
    rcases List.mem_append.mp hmem with h | h
    · exact absurd h (by decide)
    · exact natDigits_noDollar _ (by simpa using h)
  · intro hmem
    exact natDigits_noDollar _ (by simpa using hmem)

/-- Whether a value is a non-string scalar (`None`, a boolean or an
integer): the value kinds whose `str` rendering can never contain a
reference token. -/
def isScalarNB : Value → Bool
  | .none => true
  | .bool _ => true
  | .int _ => true
  | _ => false

theorem pyStrV_scalar_noDollar (c : Value) (h : isScalarNB c = true) :
    '$' ∉ (pyStrV c).toList := by
  cases c with
  | none => decide
  | bool b => cases b <;> decide
  | int n => exact intStr_noDollar n
  | str s => simp [isScalarNB] at h
  | list xs => simp [isScalarNB] at h
  | map es => simp [isScalarNB] at h

/-- Well-formedness of a reference path as matched by the reference
pattern: non-empty and free of `$`, `\x7b`, `\x7d`. -/
def refPathOk (p : String) : Prop :=
  p.toList ≠ [] ∧ ∀ c ∈ p.toList, c ≠ '$' ∧ c ≠ '{' ∧ c ≠ '}'

instance (p : String) : Decidable (refPathOk p) := by
  unfold refPathOk
  infer_instance

theorem resolveLoop_nonstr (root : Entries) (f : Nat) (obj : PyObj) (refs : List String)
    (h : ∀ s, obj ≠ .raw (.str s)) :
    resolveLoop root (f + 1) obj refs = .ok obj := by
  cases obj with
  | cfg a b => simp [resolveLoop]
  | seq a b => simp [resolveLoop]
  | raw v =>
      cases v with
      | str s => exact absurd rfl (h s)
      | none => simp [resolveLoop]
      | bool b => simp [resolveLoop]
      | int n => simp [resolveLoop]
      | list xs => simp [resolveLoop]
      | map es => simp [resolveLoop]

theorem resolveLoop_nomatch (root : Entries) (f : Nat) (L : List Char) (refs : List String)
    (h : findRefL L = Option.none) :
    resolveLoop root (f + 1) (.raw (.str (String.mk L))) refs
      = .ok (.raw (.str (String.mk L))) := by
  simp [resolveLoop, h]

theorem resolveLoop_recursive (root : Entries) (f : Nat) (L preL pL postL : List Char)
    (refs : List String)
    (hfind : findRefL L = some (preL, pL, postL))
    (hmem : String.mk pL ∈ refs) :
    resolveLoop root (f + 1) (.raw (.str (String.mk L))) refs
      = .error (.refError ("cannot resolve recursive reference " ++ String.mk pL)
          (String.mk pL)) := by
  simp [resolveLoop, hfind, hmem]

theorem resolveLoop_missing (root : Entries) (f : Nat) (L preL pL postL : List Char)
    (refs : List String) (M K : String)
    (hfind : findRefL L = some (preL, pL, postL))
    (hmem : String.mk pL ∉ refs)
    (hinner : getNR root root (String.mk pL) .noDflt = .error (.notConfigured M K)) :
    resolveLoop root (f + 1) (.raw (.str (String.mk L))) refs
      = .error (.refError ("unable to resolve referenced key " ++ String.mk pL) K) := by
  simp [resolveLoop, hfind, hmem, hinner]

theorem resolveLoop_whole (root : Entries) (f : Nat) (L pL : List Char)
    (refs : List String) (obj : PyObj)
    (hfind : findRefL L = some ([], pL, []))
    (hmem : String.mk pL ∉ refs)
    (hinner : getNR root root (String.mk pL) .noDflt = .ok obj) :
    resolveLoop root (f + 1) (.raw (.str (String.mk L))) refs
      = resolveLoop root f obj (String.mk pL :: refs) := by
  simp [resolveLoop, hfind, hmem, hinner]

theorem resolveLoop_embedded_cfg (root : Entries) (f : Nat) (L preL pL postL : List Char)
    (refs : List String) (es rt : Entries)
    (hfind : findRefL L = some (preL, pL, postL))
    (hmem : String.mk pL ∉ refs)
    (hinner : getNR root root (String.mk pL) .noDflt = .ok (.cfg es rt))
    (hemb : ¬(preL = [] ∧ postL = [])) :
    resolveLoop root (f + 1) (.raw (.str (String.mk L))) refs
      = .error (.refError ("cannot insert namespace at " ++ String.mk pL ++
          " into referring value") (String.mk pL)) := by
  simp [resolveLoop, hfind, hmem, hinner, hemb]

theorem resolveLoop_embedded_splice (root : Entries) (f : Nat) (L preL pL postL : List Char)
    (refs : List String) (v : Value)
    (hfind : findRefL L = some (preL, pL, postL))
    (hmem : String.mk pL ∉ refs)
    (hinner : getNR root root (String.mk pL) .noDflt = .ok (.raw v))
    (hemb : ¬(preL = [] ∧ postL = [])) :
    resolveLoop root (f + 1) (.raw (.str (String.mk L))) refs
      = resolveLoop root f (.raw (.str (String.mk (preL ++ (pyStrV v).toList ++ postL))))
          (String.mk pL :: refs) := by
  simp [resolveLoop, hfind, hmem, hinner, hemb, pyStrObj]

theorem getO_str (t r : Entries) (path : String) (d : Dflt) (s : String)
    (h : findPathE t (splitDots path) = some (.str s)) :
    getO t r path d = resolveStr r s := by
  have hw := walkV_ok (splitDots path) (.map t) (.str s) [] h
  simp [getO, hw]

/-- C3: a string value containing a reference whose target key does not
exist makes `get` raise the distinct unresolvable-reference error (the
message names the referenced path; the `key` attribute carries the key of
the underlying not-configured failure, the prefix of the referenced path
walked up to and including the missing step), and this error propagates
out of `get` even when the caller supplied a default (`d` here is
arbitrary, so in particular any explicit default). -/
theorem C3_unresolvable_reference_error_beats_default (t r : Entries) (q p : String)
    (d : Dflt) (s : String) (preL postL : List Char) (i : Nat) (m : Entries) (st : String)
    (hval : findPathE t (splitDots q) = some (.str s))
    (hs : s.toList = preL ++ '$' :: '{' :: p.toList ++ '}' :: postL)
    (hpre : '$' ∉ preL)
    (hp : refPathOk p)
    (h1 : findPathE r ((splitDots p).take i) = some (.map m))
    (h2 : (splitDots p)[i]? = some st)
    (h3 : lookupE m st = Option.none) :
    getO t r q d = .error (.refError ("unable to resolve referenced key " ++ p)
      (joinDots ((splitDots p).take (i + 1)))) := by
  have hsmk : s = String.mk (preL ++ '$' :: '{' :: p.toList ++ '}' :: postL) := by
    rw [← hs, stringMk_toList]
  have hfind : findRefL (preL ++ '$' :: '{' :: p.toList ++ '}' :: postL)
      = some (preL, p.toList, postL) := findRefL_app _ _ _ hpre hp.2 hp.1
  have hinner : getNR r r (String.mk p.toList) .noDflt = .error (.notConfigured
      ("no configuration for key " ++ joinDots ((splitDots p).take (i + 1)))
      (joinDots ((splitDots p).take (i + 1)))) :=
    getNR_of_walk_missing r r p i m st h1 h2 h3
  rw [getO_str t r q d s hval, hsmk]
  exact resolveLoop_missing r (sizeE r + 1) _ preL p.toList postL [] _ _
    hfind (by simp) hinner

theorem C3_unresolvable_reference_error_beats_default_witness :
    getO [("bad", .str "$\x7bmissing.key\x7d")] [("bad", .str "$\x7bmissing.key\x7d")]
        "bad" (.dflt (.raw (.int 7)))
      = .error (.refError "unable to resolve referenced key missing.key" "missing") := by
  have h := C3_unresolvable_reference_error_beats_default
    [("bad", .str "$\x7bmissing.key\x7d")] [("bad", .str "$\x7bmissing.key\x7d")]
    "bad" "missing.key" (.dflt (.raw (.int 7))) "$\x7bmissing.key\x7d"
    [] [] 0 [("bad", .str "$\x7bmissing.key\x7d")] "missing"
    (by decide) (by decide) (by decide) (by decide) (by decide) (by decide) (by decide)
  simpa using h

theorem splitDotsAux_ne_nil : ∀ (l cur : List Char), splitDotsAux cur l ≠ [] := by
  intro l
  induction l with
  | nil => intro cur; simp [splitDotsAux]
  | cons c rest ih =>
      intro cur
      by_cases h : c = '.'
      · simp [splitDotsAux, h]
      · simp only [splitDotsAux, if_neg h]
        exact ih (c :: cur)

theorem sizeE_pos_of_findPath (r : Entries) (p : String) (w : Value)
    (h : findPathE r (splitDots p) = some w) : 1 ≤ sizeE r := by
  rcases hsd : splitDots p with _ | ⟨s0, rest⟩
  · exact absurd (by simpa [splitDots] using hsd) (splitDotsAux_ne_nil p.toList [])
  · cases r with
    | nil => rw [hsd] at h; simp [findPathE, findPathV, lookupE] at h
    | cons e r2 =>
        obtain ⟨k, v⟩ := e
        simp [sizeE]
        omega

/-- C5: a key whose value references the key itself raises the structured
recursive-reference error naming that path, and a two-hop cycle raises it
naming the second path of the cycle (the one seen twice), in both cases
instead of looping forever, and for any `default` argument. -/
theorem C5_recursive_reference_detected :
    (∀ (r : Entries) (p : String) (d : Dflt) (s : String),
       findPathE r (splitDots p) = some (.str s) →
       s.toList = '$' :: '{' :: p.toList ++ '}' :: [] →
       refPathOk p →
       getO r r p d = .error (.refError ("cannot resolve recursive reference " ++ p) p))
    ∧ (∀ (r : Entries) (p q : String) (d : Dflt) (sp sq : String),
       findPathE r (splitDots p) = some (.str sp) →
       sp.toList = '$' :: '{' :: q.toList ++ '}' :: [] →
       findPathE r (splitDots q) = some (.str sq) →
       sq.toList = '$' :: '{' :: p.toList ++ '}' :: [] →
       refPathOk p → refPathOk q → p ≠ q →
       getO r r p d = .error (.refError ("cannot resolve recursive reference " ++ q) q)) := by
  constructor
  · intro r p d s hval hs hp
    have hsmk : s = String.mk ('$' :: '{' :: p.toList ++ '}' :: []) := by
      rw [← hs, stringMk_toList]
    have hfind : findRefL ('$' :: '{' :: p.toList ++ '}' :: [])
        = some ([], p.toList, []) := findRefL_app [] _ [] (by simp) hp.2 hp.1
    have hinner : getNR r r (String.mk p.toList) .noDflt = .ok (.raw (.str s)) := by
      simpa [wrapNR] using getNR_of_walk_ok r r p .noDflt (.str s) hval
    rw [getO_str r r p d s hval, hsmk]
    rw [show resolveStr r (String.mk ('$' :: '{' :: p.toList ++ '}' :: []))
        = resolveLoop r ((sizeE r + 1) + 1)
            (.raw (.str (String.mk ('$' :: '{' :: p.toList ++ '}' :: [])))) [] from rfl]
    rw [resolveLoop_whole r (sizeE r + 1) _ p.toList [] _ hfind (by simp) hinner]
    rw [hsmk]
    exact resolveLoop_recursive r (sizeE r) _ [] p.toList []
      [String.mk p.toList] hfind (by simp)
  · intro r p q d sp sq hvp hsp hvq hsq hp hq hne
    have hpos := sizeE_pos_of_findPath r p _ hvp
    obtain ⟨mm, hm⟩ : ∃ mm, sizeE r = mm + 1 := ⟨sizeE r - 1, by omega⟩
    have hspmk : sp = String.mk ('$' :: '{' :: q.toList ++ '}' :: []) := by
      rw [← hsp, stringMk_toList]
    have hsqmk : sq = String.mk ('$' :: '{' :: p.toList ++ '}' :: []) := by
      rw [← hsq, stringMk_toList]
    have hfindp : findRefL ('$' :: '{' :: q.toList ++ '}' :: [])
        = some ([], q.toList, []) := findRefL_app [] _ [] (by simp) hq.2 hq.1
    have hfindq : findRefL ('$' :: '{' :: p.toList ++ '}' :: [])
        = some ([], p.toList, []) := findRefL_app [] _ [] (by simp) hp.2 hp.1
    have hinner_q : getNR r r (String.mk q.toList) .noDflt = .ok (.raw (.str sq)) := by
      simpa [wrapNR] using getNR_of_walk_ok r r q .noDflt (.str sq) hvq
    have hinner_p : getNR r r (String.mk p.toList) .noDflt = .ok (.raw (.str sp)) := by
      simpa [wrapNR] using getNR_of_walk_ok r r p .noDflt (.str sp) hvp
    have hmem2 : String.mk p.toList ∉ [String.mk q.toList] := by
      intro hcon
      simp at hcon
      exact hne hcon
    rw [getO_str r r p d sp hvp, hspmk]
    rw [show resolveStr r (String.mk ('$' :: '{' :: q.toList ++ '}' :: []))
        = resolveLoop r (sizeE r + 2)
            (.raw (.str (String.mk ('$' :: '{' :: q.toList ++ '}' :: [])))) [] from rfl]
    rw [hm, show mm + 1 + 2 = (mm + 2) + 1 from rfl]
    rw [resolveLoop_whole r (mm + 2) _ q.toList [] _ hfindp (by simp) hinner_q]
    rw [hsqmk, show mm + 2 = (mm + 1) + 1 from rfl]
    rw [resolveLoop_whole r (mm + 1) _ p.toList [String.mk q.toList] _ hfindq hmem2 hinner_p]
    rw [hspmk]
    exact resolveLoop_recursive r mm _ [] q.toList []
      [String.mk p.toList, String.mk q.toList] hfindp (by simp)

theorem C5_recursive_reference_detected_witness :
    getO [("a", .str "$\x7ba\x7d")] [("a", .str "$\x7ba\x7d")] "a" .noDflt
        = .error (.refError "cannot resolve recursive reference a" "a")
      ∧ getO [("a", .str "$\x7bb\x7d"), ("b", .str "$\x7ba\x7d")]
          [("a", .str "$\x7bb\x7d"), ("b", .str "$\x7ba\x7d")] "a" .noDflt
        = .error (.refError "cannot resolve recursive reference b" "b") := by
  constructor
  · have h := C5_recursive_reference_detected.1 [("a", .str "$\x7ba\x7d")] "a" .noDflt
      "$\x7ba\x7d" (by decide) (by decide) (by decide)
    simpa using h
  · have h := C5_recursive_reference_detected.2
      [("a", .str "$\x7bb\x7d"), ("b", .str "$\x7ba\x7d")] "a" "b" .noDflt
      "$\x7bb\x7d" "$\x7ba\x7d"
      (by decide) (by decide) (by decide) (by decide) (by decide) (by decide) (by decide)
    simpa using h

/-- C9: a string value embedding the same reference twice in surrounding
text (each occurrence resolving to the same non-reference scalar, with no
actual cycle) raises the recursive-reference error on the second
occurrence instead of splicing the value into both places, because the
visited-path set persists across independent matches within one value. -/
theorem C9_repeated_embedded_reference_raises (t r : Entries) (q p : String) (d : Dflt)
    (s : String) (preL midL postL : List Char) (c : Value)
    (hval : findPathE t (splitDots q) = some (.str s))
    (hs : s.toList = preL ++ '$' :: '{' :: p.toList ++ '}' ::
          (midL ++ '$' :: '{' :: p.toList ++ '}' :: postL))
    (hpre : '$' ∉ preL) (hmid : '$' ∉ midL)
    (hp : refPathOk p)
    (hc : isScalarNB c = true)
    (hres : findPathE r (splitDots p) = some c) :
    getO t r q d = .error (.refError ("cannot resolve recursive reference " ++ p) p) := by
  have hnostr := pyStrV_scalar_noDollar c hc
  have hsmk : s = String.mk (preL ++ '$' :: '{' :: p.toList ++ '}' ::
      (midL ++ '$' :: '{' :: p.toList ++ '}' :: postL)) := by
    rw [← hs, stringMk_toList]
  have hfind1 : findRefL (preL ++ '$' :: '{' :: p.toList ++ '}' ::
      (midL ++ '$' :: '{' :: p.toList ++ '}' :: postL))
      = some (preL, p.toList, midL ++ '$' :: '{' :: p.toList ++ '}' :: postL) :=
    findRefL_app preL _ _ hpre hp.2 hp.1
  have hwrap : wrapNR r c = .raw c := by
    cases c with
    | none => rfl
    | bool b => rfl
    | int n => rfl
    | str s2 => simp [isScalarNB] at hc
    | list xs => simp [isScalarNB] at hc
    | map es => simp [isScalarNB] at hc
  have hinner : getNR r r (String.mk p.toList) .noDflt = .ok (.raw c) := by
    have h0 := getNR_of_walk_ok r r p .noDflt c hres
    rw [hwrap] at h0
    exact h0
  have hpre2 : '$' ∉ (preL ++ (pyStrV c).toList ++ midL) := by
    intro h
    rcases List.mem_append.mp h with h1 | h1
    · rcases List.mem_append.mp h1 with h2 | h2
      · exact hpre h2
      · exact hnostr h2
    · exact hmid h1
  have hfind2 : findRefL ((preL ++ (pyStrV c).toList ++ midL)
      ++ '$' :: '{' :: p.toList ++ '}' :: postL)
      = some (preL ++ (pyStrV c).toList ++ midL, p.toList, postL) :=
    findRefL_app _ _ _ hpre2 hp.2 hp.1
  rw [getO_str t r q d s hval, hsmk]
  rw [show resolveStr r (String.mk (preL ++ '$' :: '{' :: p.toList ++ '}' ::
      (midL ++ '$' :: '{' :: p.toList ++ '}' :: postL)))
      = resolveLoop r ((sizeE r + 1) + 1)
          (.raw (.str (String.mk (preL ++ '$' :: '{' :: p.toList ++ '}' ::
            (midL ++ '$' :: '{' :: p.toList ++ '}' :: postL))))) [] from rfl]
  rw [resolveLoop_embedded_splice r (sizeE r + 1) _ preL p.toList
      (midL ++ '$' :: '{' :: p.toList ++ '}' :: postL) [] c hfind1 (by simp) hinner
      (by intro hcon; exact absurd hcon.2 (by simp))]
  rw [show preL ++ (pyStrV c).toList ++ (midL ++ '$' :: '{' :: p.toList ++ '}' :: postL)
      = (preL ++ (pyStrV c).toList ++ midL) ++ '$' :: '{' :: p.toList ++ '}' :: postL from by
    simp [List.append_assoc]]
  exact resolveLoop_recursive r (sizeE r) _ (preL ++ (pyStrV c).toList ++ midL)
    p.toList postL [String.mk p.toList] hfind2 (by simp)

theorem C9_repeated_embedded_reference_raises_witness :
    getO [("a", .int 5), ("t", .str "x $\x7ba\x7d y $\x7ba\x7d z")]
        [("a", .int 5), ("t", .str "x $\x7ba\x7d y $\x7ba\x7d z")] "t" (.dflt (.raw .none))
      = .error (.refError "cannot resolve recursive reference a" "a") := by
  have h := C9_repeated_embedded_reference_raises
    [("a", .int 5), ("t", .str "x $\x7ba\x7d y $\x7ba\x7d z")]
    [("a", .int 5), ("t", .str "x $\x7ba\x7d y $\x7ba\x7d z")]
    "t" "a" (.dflt (.raw .none)) "x $\x7ba\x7d y $\x7ba\x7d z"
    "x ".toList " y ".toList " z".toList (.int 5)
    (by decide) (by decide) (by decide) (by decide) (by decide) (by decide) (by decide)
  simpa using h

/-- C4: a configured string value that is exactly one reference token
resolves to the referenced value with its native (wrapped) type preserved
— a namespace arrives as a wrapped `Configuration`, a sequence as a
sequence view, numbers and booleans as themselves (any non-string lookup
result is returned as-is; a string result would continue the resolution
loop).  A reference embedded in surrounding text renders the referenced
scalar as its `str` form spliced into the text; if the embedded reference
resolves to a namespace, the lookup fails with the structured
cannot-insert-namespace error naming the referenced path. -/
theorem C4_reference_native_type_and_templates :
    (∀ (t r : Entries) (q p : String) (d : Dflt) (s : String) (refObj : PyObj),
       findPathE t (splitDots q) = some (.str s) →
       s.toList = '$' :: '{' :: p.toList ++ '}' :: [] →
       refPathOk p →
       getNR r r p .noDflt = .ok refObj →
       (∀ s2, refObj ≠ .raw (.str s2)) →
       getO t r q d = .ok refObj)
  ∧ (∀ (t r : Entries) (q p : String) (d : Dflt) (s : String)
       (preL postL : List Char) (c : Value),
       findPathE t (splitDots q) = some (.str s) →
       s.toList = preL ++ '$' :: '{' :: p.toList ++ '}' :: postL →
       '$' ∉ preL → '$' ∉ postL → ¬(preL = [] ∧ postL = []) →
       refPathOk p →
       isScalarNB c = true →
       findPathE r (splitDots p) = some c →
       getO t r q d = .ok (.raw (.str (String.mk (preL ++ (pyStrV c).toList ++ postL)))))
  ∧ (∀ (t r : Entries) (q p : String) (d : Dflt) (s : String)
       (preL postL : List Char) (sub : Entries),
       findPathE t (splitDots q) = some (.str s) →
       s.toList = preL ++ '$' :: '{' :: p.toList ++ '}' :: postL →
       '$' ∉ preL → ¬(preL = [] ∧ postL = []) →
       refPathOk p →
       findPathE r (splitDots p) = some (.map sub) →
       getO t r q d = .error (.refError ("cannot insert namespace at " ++ p ++
         " into referring value") p)) := by
  refine ⟨?_, ?_, ?_⟩
  · intro t r q p d s refObj hval hs hp hinner hnstr
    have hsmk : s = String.mk ('$' :: '{' :: p.toList ++ '}' :: []) := by
      rw [← hs, stringMk_toList]
    have hfind : findRefL ('$' :: '{' :: p.toList ++ '}' :: [])
        = some ([], p.toList, []) := findRefL_app [] _ [] (by simp) hp.2 hp.1
    rw [getO_str t r q d s hval, hsmk]
    rw [show resolveStr r (String.mk ('$' :: '{' :: p.toList ++ '}' :: []))
        = resolveLoop r ((sizeE r + 1) + 1)
            (.raw (.str (String.mk ('$' :: '{' :: p.toList ++ '}' :: [])))) [] from rfl]
    rw [resolveLoop_whole r (sizeE r + 1) _ p.toList [] refObj hfind (by simp) hinner]
    exact resolveLoop_nonstr r (sizeE r) refObj [String.mk p.toList] hnstr
  · intro t r q p d s preL postL c hval hs hpre hpost hemb hp hc hres
    have hnostr := pyStrV_scalar_noDollar c hc
    have hsmk : s = String.mk (preL ++ '$' :: '{' :: p.toList ++ '}' :: postL) := by
      rw [← hs, stringMk_toList]
    have hfind : findRefL (preL ++ '$' :: '{' :: p.toList ++ '}' :: postL)
        = some (preL, p.toList, postL) := findRefL_app preL _ postL hpre hp.2 hp.1
    have hwrap : wrapNR r c = .raw c := by
      cases c with
      | none => rfl
      | bool b => rfl
      | int n => rfl
      | str s2 => simp [isScalarNB] at hc
      | list xs => simp [isScalarNB] at hc
      | map es => simp [isScalarNB] at hc
    have hinner : getNR r r (String.mk p.toList) .noDflt = .ok (.raw c) := by
      have h0 := getNR_of_walk_ok r r p .noDflt c hres
      rw [hwrap] at h0
      exact h0
    have hnone : findRefL (preL ++ (pyStrV c).toList ++ postL) = Option.none := by
      apply findRefL_none
      intro h
      rcases List.mem_append.mp h with h1 | h1
      · rcases List.mem_append.mp h1 with h2 | h2
        · exact hpre h2
        · exact hnostr h2
      · exact hpost h1
    rw [getO_str t r q d s hval, hsmk]
    rw [show resolveStr r (String.mk (preL ++ '$' :: '{' :: p.toList ++ '}' :: postL))
        = resolveLoop r ((sizeE r + 1) + 1)
            (.raw (.str (String.mk (preL ++ '$' :: '{' :: p.toList ++ '}' :: postL)))) []
          from rfl]
    rw [resolveLoop_embedded_splice r (sizeE r + 1) _ preL p.toList postL [] c
        hfind (by simp) hinner hemb]
    exact resolveLoop_nomatch r (sizeE r) _ [String.mk p.toList] hnone
  · intro t r q p d s preL postL sub hval hs hpre hemb hp hres
    have hsmk : s = String.mk (preL ++ '$' :: '{' :: p.toList ++ '}' :: postL) := by
      rw [← hs, stringMk_toList]
    have hfind : findRefL (preL ++ '$' :: '{' :: p.toList ++ '}' :: postL)
        = some (preL, p.toList, postL) := findRefL_app preL _ postL hpre hp.2 hp.1
    have hinner : getNR r r (String.mk p.toList) .noDflt = .ok (.cfg sub r) :=
      getNR_of_walk_ok r r p .noDflt (.map sub) hres
    rw [getO_str t r q d s hval, hsmk]
    rw [show resolveStr r (String.mk (preL ++ '$' :: '{' :: p.toList ++ '}' :: postL))
        = resolveLoop r ((sizeE r + 1) + 1)
            (.raw (.str (String.mk (preL ++ '$' :: '{' :: p.toList ++ '}' :: postL)))) []
          from rfl]
    exact resolveLoop_embedded_cfg r (sizeE r + 1) _ preL p.toList postL [] sub r
      hfind (by simp) hinner hemb

theorem C4_reference_native_type_and_templates_witness :
    getO [("ns", .map [("x", .int 1)]), ("ref", .str "$\x7bns\x7d")]
        [("ns", .map [("x", .int 1)]), ("ref", .str "$\x7bns\x7d")] "ref" .noDflt
      = .ok (.cfg [("x", .int 1)]
          [("ns", .map [("x", .int 1)]), ("ref", .str "$\x7bns\x7d")])
    ∧ getO [("n", .int 7), ("t", .str "num $\x7bn\x7d!")]
        [("n", .int 7), ("t", .str "num $\x7bn\x7d!")] "t" .noDflt
      = .ok (.raw (.str "num 7!"))
    ∧ getO [("ns", .map [("x", .int 1)]), ("t", .str "a $\x7bns\x7d b")]
        [("ns", .map [("x", .int 1)]), ("t", .str "a $\x7bns\x7d b")] "t" .noDflt
      = .error (.refError "cannot insert namespace at ns into referring value" "ns") := by
  refine ⟨?_, ?_, ?_⟩
  · have h := C4_reference_native_type_and_templates.1
      [("ns", .map [("x", .int 1)]), ("ref", .str "$\x7bns\x7d")]
      [("ns", .map [("x", .int 1)]), ("ref", .str "$\x7bns\x7d")]
      "ref" "ns" .noDflt "$\x7bns\x7d"
      (.cfg [("x", .int 1)] [("ns", .map [("x", .int 1)]), ("ref", .str "$\x7bns\x7d")])
      (by decide) (by decide) (by decide) (by decide) (fun s2 h => by cases h)
    simpa using h
  · have h := C4_reference_native_type_and_templates.2.1
      [("n", .int 7), ("t", .str "num $\x7bn\x7d!")]
      [("n", .int 7), ("t", .str "num $\x7bn\x7d!")]
      "t" "n" .noDflt "num $\x7bn\x7d!" "num ".toList "!".toList (.int 7)
      (by decide) (by decide) (by decide) (by decide) (by decide) (by decide) (by decide)
      (by decide)
    simpa using h
  · have h := C4_reference_native_type_and_templates.2.2
      [("ns", .map [("x", .int 1)]), ("t", .str "a $\x7bns\x7d b")]
      [("ns", .map [("x", .int 1)]), ("t", .str "a $\x7bns\x7d b")]
      "t" "ns" .noDflt "a $\x7bns\x7d b" "a ".toList " b".toList [("x", .int 1)]
      (by decide) (by decide) (by decide) (by decide) (by decide) (by decide)
    simpa using h

/-- C8 counterexample: a sequence view whose single element resolves to
`1` does not compare equal to the plain list `[1]` of post-resolution
values — `ConfigurationSequence` defines no `__eq__`, so the comparison
falls back to object identity and yields `False`, refuting pairwise
value comparison. -/
theorem C8_counterexample_view_not_equal_plain_list :
    getO [("xs", .list [.int 1])] [("xs", .list [.int 1])] "xs" .noDflt
        = .ok (.seq [.int 1] [("xs", .list [.int 1])])
    ∧ seqGetItem [.int 1] [("xs", .list [.int 1])] 0 = .ok (.raw (.int 1))
    ∧ pyObjEqF 5 (.seq [.int 1] [("xs", .list [.int 1])]) (.raw (.list [.int 1]))
        = .ok false := by decide

/-- C8 (amended): a configuration sequence view implements no value
equality at all — comparing it with a plain list (in either order), or
with another freshly produced view, yields `False` whatever the elements,
because `ConfigurationSequence` defines no `__eq__` and distinct objects
compare unequal by identity. -/
theorem C8_sequence_view_equality_is_identity (xs ys : List Value) (root r2 : Entries)
    (f : Nat) :
    pyObjEqF (f + 1) (.seq xs root) (.raw (.list ys)) = .ok false
    ∧ pyObjEqF (f + 1) (.raw (.list ys)) (.seq xs root) = .ok false
    ∧ pyObjEqF (f + 1) (.seq xs root) (.seq ys r2) = .ok false :=
  ⟨rfl, rfl, rfl⟩

/-!
Canonical-form lemmas for the key splitter: `split_keys` always produces
trees whose keys are separator-free and unique (with canonical values),
and on such trees it is the identity — together, idempotence.
-/

theorem lookupE_append_none (a b : Entries) (key : String) :
    lookupE (a ++ b) key = Option.none
      ↔ lookupE a key = Option.none ∧ lookupE b key = Option.none := by
  induction a with
  | nil => simp [lookupE]
  | cons e rest ih =>
      obtain ⟨k0, v0⟩ := e
      by_cases h : k0 = key <;> simp [lookupE, h, ih]

theorem setE_append_of_absent (l : Entries) (k : String) (v : Value)
    (h : lookupE l k = Option.none) : setE l k v = l ++ [(k, v)] := by
  induction l with
  | nil => simp [setE]
  | cons e rest ih =>
      obtain ⟨k0, v0⟩ := e
      by_cases hk : k0 = k
      · simp [lookupE, hk] at h
      · simp only [lookupE, if_neg hk] at h
        simp [setE, hk, ih h]

theorem lookupE_setE_ne (l : Entries) (k k0 : String) (v : Value) (h : k0 ≠ k) :
    lookupE (setE l k v) k0 = lookupE l k0 := by
  induction l with
  | nil =>
      have : k ≠ k0 := fun hh => h hh.symm
      simp [setE, lookupE, this]
  | cons e rest ih =>
      obtain ⟨k1, v1⟩ := e
      by_cases hk1 : k1 = k
      · have hk10 : k1 ≠ k0 := fun hh => h (hh.symm.trans hk1)
        simp [setE, hk1, lookupE, hk10]
        have : k ≠ k0 := fun hh => h hh.symm
        simp [if_neg this]
      · simp only [setE, if_neg hk1]
        by_cases hk10 : k1 = k0
        · simp [lookupE, hk10]
        · simp [lookupE, hk10, ih]

theorem canon_lookup (l : Entries) (k : String) (v : Value)
    (hl : canonE l = true) (h : lookupE l k = some v) : canonV v = true := by
  induction l with
  | nil => simp [lookupE] at h
  | cons e rest ih =>
      obtain ⟨k0, v0⟩ := e
      simp only [canonE, Bool.and_eq_true] at hl
      obtain ⟨⟨⟨h1, h2⟩, h3⟩, h4⟩ := hl
      by_cases hk : k0 = k
      · simp only [lookupE, if_pos hk] at h
        injection h with hv
        exact hv ▸ h3
      · simp only [lookupE, if_neg hk] at h
        exact ih h4 h

theorem splitDot1L_first_noDot : ∀ (l a b : List Char),
    splitDot1L l = some (a, b) → '.' ∉ a := by
  intro l
  induction l with
  | nil => intro a b h; simp [splitDot1L] at h
  | cons c rest ih =>
      intro a b h
      by_cases hc : c = '.'
      · simp [splitDot1L, hc] at h
        rw [h.1]
        simp
      · simp only [splitDot1L, if_neg hc] at h
        cases hr : splitDot1L rest with
        | none => rw [hr] at h; simp at h
        | some p =>
            rw [hr] at h
            obtain ⟨a2, b2⟩ := p
            simp at h
            rw [← h.1]
            intro hmem
            rcases List.mem_cons.mp hmem with hmem | hmem
            · exact hc hmem.symm
            · exact ih a2 b2 (by rw [hr]) hmem

theorem splitDot1L_none_of_noDot : ∀ (l : List Char), '.' ∉ l →
    splitDot1L l = Option.none := by
  intro l
  induction l with
  | nil => intro _; simp [splitDot1L]
  | cons c rest ih =>
      intro h
      have hc : c ≠ '.' := fun hh => h (by simp [hh])
      simp [splitDot1L, hc, ih (fun hh => h (by simp [hh]))]

theorem splitDot1_first_dotfree (key k rest : String)
    (h : splitDot1 key = some (k, rest)) : (splitDot1 k).isNone = true := by
  unfold splitDot1 at h ⊢
  cases hl : splitDot1L key.toList with
  | none => rw [hl] at h; simp at h
  | some p =>
      rw [hl] at h
      obtain ⟨a, b⟩ := p
      simp at h
      have hnod := splitDot1L_first_noDot key.toList a b hl
      rw [← h.1]
      simp [splitDot1L_none_of_noDot a hnod]

theorem ok_bind {ε α β : Type} (a : α) (f : α → Except ε β) :
    (Except.ok a >>= f) = f a := rfl

theorem error_bind {ε α β : Type} (e : ε) (f : α → Except ε β) :
    ((Except.error e : Except ε α) >>= f) = .error e := rfl

theorem mergeIntoF_nil (f : Nat) (c : Conflict) (l : Entries) (path : List String) :
    mergeIntoF (f + 1) c l [] path = .ok l := rfl

theorem mergeIntoF_cons_absent (f : Nat) (c : Conflict) (l : Entries) (k : String)
    (rv : Value) (rest : Entries) (path : List String) (h : lookupE l k = Option.none) :
    mergeIntoF (f + 1) c l ((k, rv) :: rest) path
      = mergeIntoF f c (setE l k rv) rest path := by
  simp [mergeIntoF, h]

theorem mergeIntoF_cons_map_map (f : Nat) (c : Conflict) (l : Entries) (k : String)
    (les res : Entries) (rest : Entries) (path : List String)
    (h : lookupE l k = some (.map les)) :
    mergeIntoF (f + 1) c l ((k, .map res) :: rest) path
      = (mergeIntoF f c les res (path ++ [k]) >>= fun merged =>
          mergeIntoF f c (setE l k (.map merged)) rest path) := by
  cases hx : mergeIntoF f c les res (path ++ [k]) with
  | error e => simp only [mergeIntoF, h, hx]; rfl
  | ok m => simp only [mergeIntoF, h, hx]; rfl

theorem mergeIntoF_cons_other (f : Nat) (c : Conflict) (l : Entries) (k : String)
    (lv rv : Value) (rest : Entries) (path : List String)
    (h : lookupE l k = some lv)
    (hnm : ¬(isMap lv = true ∧ isMap rv = true)) :
    mergeIntoF (f + 1) c l ((k, rv) :: rest) path
      = ((if pyEq lv rv then pure l
          else match c with
               | .error => .error (.mergeConflict
                   ("merge conflict at " ++ joinDots (path ++ [k]))
                   (joinDots (path ++ [k])))
               | .overwrite => pure (setE l k rv))
          >>= fun left2 => mergeIntoF f c left2 rest path) := by
  cases lv with
  | map les =>
      cases rv with
      | map res => exact absurd ⟨rfl, rfl⟩ hnm
      | none => simp only [mergeIntoF, h]
      | bool b => simp only [mergeIntoF, h]
      | int n => simp only [mergeIntoF, h]
      | str s => simp only [mergeIntoF, h]
      | list xs => simp only [mergeIntoF, h]
  | none => cases rv <;> simp only [mergeIntoF, h]
  | bool b => cases rv <;> simp only [mergeIntoF, h]
  | int n => cases rv <;> simp only [mergeIntoF, h]
  | str s => cases rv <;> simp only [mergeIntoF, h]
  | list xs => cases rv <;> simp only [mergeIntoF, h]

theorem setE_canon (l : Entries) (k : String) (nv : Value)
    (hl : canonE l = true) (hnv : canonV nv = true) (hk : (splitDot1 k).isNone = true) :
    canonE (setE l k nv) = true := by
  induction l with
  | nil =>
      simp only [setE, canonE, Bool.and_eq_true]
      exact ⟨⟨⟨hk, by simp [lookupE]⟩, hnv⟩, by trivial⟩
  | cons e rest ih =>
      obtain ⟨k0, v0⟩ := e
      simp only [canonE, Bool.and_eq_true] at hl
      obtain ⟨⟨⟨h1, h2⟩, h3⟩, h4⟩ := hl
      by_cases hke : k0 = k
      · simp only [setE, if_pos hke, canonE, Bool.and_eq_true]
        exact ⟨⟨⟨h1, h2⟩, hnv⟩, h4⟩
      · simp only [setE, if_neg hke, canonE, Bool.and_eq_true]
        refine ⟨⟨⟨h1, ?_⟩, h3⟩, ih h4⟩
        rw [Option.isNone_iff_eq_none] at h2 ⊢
        rw [lookupE_setE_ne rest k k0 nv hke]
        exact h2

theorem canonE_append_cons : ∀ (acc : Entries) (k : String) (v : Value) (rest : Entries),
    canonE (acc ++ (k, v) :: rest) = true →
    canonE (acc ++ rest) = true ∧ (splitDot1 k).isNone = true ∧ canonV v = true
    ∧ lookupE acc k = Option.none ∧ lookupE rest k = Option.none := by
  intro acc
  induction acc with
  | nil =>
      intro k v rest h
      simp only [List.nil_append] at h ⊢
      simp only [canonE, Bool.and_eq_true] at h
      obtain ⟨⟨⟨h1, h2⟩, h3⟩, h4⟩ := h
      rw [Option.isNone_iff_eq_none] at h2
      exact ⟨h4, h1, h3, by simp [lookupE], h2⟩
  | cons e acc ih =>
      intro k v rest h
      obtain ⟨k0, v0⟩ := e
      simp only [List.cons_append] at h ⊢
      simp only [canonE, Bool.and_eq_true] at h
      obtain ⟨⟨⟨h1, h2⟩, h3⟩, h4⟩ := h
      obtain ⟨ha, hb, hc, hd, he⟩ := ih k v rest h4
      rw [Option.isNone_iff_eq_none] at h2
      have hparts := (lookupE_append_none acc ((k, v) :: rest) k0).mp h2
      have hkk0 : ¬(k = k0) := by
        intro hh
        simp [lookupE, hh] at hparts
      have htail : lookupE rest k0 = Option.none := by
        have := hparts.2
        simpa [lookupE, hkk0] using this
      refine ⟨?_, hb, hc, ?_, he⟩
      · simp only [canonE, Bool.and_eq_true]
        refine ⟨⟨⟨h1, ?_⟩, h3⟩, ha⟩
        rw [Option.isNone_iff_eq_none]
        exact (lookupE_append_none acc rest k0).mpr ⟨hparts.1, htail⟩
      · have hk0k : ¬(k0 = k) := fun hh => hkk0 hh.symm
        simp [lookupE, hk0k, hd]

theorem mergeIntoF_canon : ∀ (f : Nat) (c : Conflict) (rgt l : Entries) (path : List String)
    (l2 : Entries), canonE l = true → canonE rgt = true →
    mergeIntoF f c l rgt path = .ok l2 → canonE l2 = true := by
  intro f
  induction f with
  | zero => intro c rgt l path l2 _ _ heq; simp [mergeIntoF] at heq
  | succ f ih =>
      intro c rgt l path l2 hl hr heq
      cases rgt with
      | nil =>
          rw [mergeIntoF_nil] at heq
          injection heq with h2
          rw [← h2]
          exact hl
      | cons e rest =>
          obtain ⟨k, rv⟩ := e
          simp only [canonE, Bool.and_eq_true] at hr
          obtain ⟨⟨⟨hr1, hr2⟩, hr3⟩, hr4⟩ := hr
          cases hlk : lookupE l k with
          | none =>
              rw [mergeIntoF_cons_absent f c l k rv rest path hlk] at heq
              exact ih c rest (setE l k rv) path l2 (setE_canon l k rv hl hr3 hr1) hr4 heq
          | some lv =>
              cases lv with
              | map les =>
                  cases rv with
                  | map res =>
                      rw [mergeIntoF_cons_map_map f c l k les res rest path hlk] at heq
                      cases hmg : mergeIntoF f c les res (path ++ [k]) with
                      | error e2 => rw [hmg, error_bind] at heq; exact absurd heq (by simp)
                      | ok merged =>
                          rw [hmg, ok_bind] at heq
                          have hles : canonE les = true := canon_lookup l k (.map les) hl hlk
                          have hmerged : canonE merged = true :=
                            ih c res les (path ++ [k]) merged hles hr3 hmg
                          exact ih c rest (setE l k (.map merged)) path l2
                            (setE_canon l k (.map merged) hl hmerged hr1) hr4 heq
                  | none =>
                      rw [mergeIntoF_cons_other f c l k (.map les) .none rest path hlk
                        (by simp [isMap])] at heq
                      rw [if_neg (by simp [pyEq])] at heq
                      cases c with
                      | error => rw [error_bind] at heq; exact absurd heq (by simp)
                      | overwrite =>
                          rw [pure_bind] at heq
                          exact ih .overwrite rest (setE l k .none) path l2
                            (setE_canon l k .none hl hr3 hr1) hr4 heq
                  | bool b =>
                      rw [mergeIntoF_cons_other f c l k (.map les) (.bool b) rest path hlk
                        (by simp [isMap])] at heq
                      rw [if_neg (by simp [pyEq])] at heq
                      cases c with
                      | error => rw [error_bind] at heq; exact absurd heq (by simp)
                      | overwrite =>
                          rw [pure_bind] at heq
                          exact ih .overwrite rest (setE l k (.bool b)) path l2
                            (setE_canon l k (.bool b) hl hr3 hr1) hr4 heq
                  | int n =>
                      rw [mergeIntoF_cons_other f c l k (.map les) (.int n) rest path hlk
                        (by simp [isMap])] at heq
                      rw [if_neg (by simp [pyEq])] at heq
                      cases c with
                      | error => rw [error_bind] at heq; exact absurd heq (by simp)
                      | overwrite =>
                          rw [pure_bind] at heq
                          exact ih .overwrite rest (setE l k (.int n)) path l2
                            (setE_canon l k (.int n) hl hr3 hr1) hr4 heq
                  | str s =>
                      rw [mergeIntoF_cons_other f c l k (.map les) (.str s) rest path hlk
                        (by simp [isMap])] at heq
                      rw [if_neg (by simp [pyEq])] at heq
                      cases c with
                      | error => rw [error_bind] at heq; exact absurd heq (by simp)
                      | overwrite =>
                          rw [pure_bind] at heq
                          exact ih .overwrite rest (setE l k (.str s)) path l2
                            (setE_canon l k (.str s) hl hr3 hr1) hr4 heq
                  | list xs =>
                      rw [mergeIntoF_cons_other f c l k (.map les) (.list xs) rest path hlk
                        (by simp [isMap])] at heq
                      rw [if_neg (by simp [pyEq])] at heq
                      cases c with
                      | error => rw [error_bind] at heq; exact absurd heq (by simp)
                      | overwrite =>
                          rw [pure_bind] at heq
                          exact ih .overwrite rest (setE l k (.list xs)) path l2
                            (setE_canon l k (.list xs) hl hr3 hr1) hr4 heq
              | none =>
                  rw [mergeIntoF_cons_other f c l k .none rv rest path hlk
                    (by simp [isMap])] at heq
                  by_cases hpe : pyEq .none rv = true
                  · rw [if_pos hpe, pure_bind] at heq
                    exact ih c rest l path l2 hl hr4 heq
                  · rw [if_neg hpe] at heq
                    cases c with
                    | error => rw [error_bind] at heq; exact absurd heq (by simp)
                    | overwrite =>
                        rw [pure_bind] at heq
                        exact ih .overwrite rest (setE l k rv) path l2
                          (setE_canon l k rv hl hr3 hr1) hr4 heq
              | bool b =>
                  rw [mergeIntoF_cons_other f c l k (.bool b) rv rest path hlk
                    (by simp [isMap])] at heq
                  by_cases hpe : pyEq (.bool b) rv = true
                  · rw [if_pos hpe, pure_bind] at heq
                    exact ih c rest l path l2 hl hr4 heq
                  · rw [if_neg hpe] at heq
                    cases c with
                    | error => rw [error_bind] at heq; exact absurd heq (by simp)
                    | overwrite =>
                        rw [pure_bind] at heq
                        exact ih .overwrite rest (setE l k rv) path l2
                          (setE_canon l k rv hl hr3 hr1) hr4 heq
              | int n =>
                  rw [mergeIntoF_cons_other f c l k (.int n) rv rest path hlk
                    (by simp [isMap])] at heq
                  by_cases hpe : pyEq (.int n) rv = true
                  · rw [if_pos hpe, pure_bind] at heq
                    exact ih c rest l path l2 hl hr4 heq
                  · rw [if_neg hpe] at heq
                    cases c with
                    | error => rw [error_bind] at heq; exact absurd heq (by simp)
                    | overwrite =>
                        rw [pure_bind] at heq
                        exact ih .overwrite rest (setE l k rv) path l2
                          (setE_canon l k rv hl hr3 hr1) hr4 heq
              | str s =>
                  rw [mergeIntoF_cons_other f c l k (.str s) rv rest path hlk
                    (by simp [isMap])] at heq
                  by_cases hpe : pyEq (.str s) rv = true
                  · rw [if_pos hpe, pure_bind] at heq
                    exact ih c rest l path l2 hl hr4 heq
                  · rw [if_neg hpe] at heq
                    cases c with
                    | error => rw [error_bind] at heq; exact absurd heq (by simp)
                    | overwrite =>
                        rw [pure_bind] at heq
                        exact ih .overwrite rest (setE l k rv) path l2
                          (setE_canon l k rv hl hr3 hr1) hr4 heq
              | list xs =>
                  rw [mergeIntoF_cons_other f c l k (.list xs) rv rest path hlk
                    (by simp [isMap])] at heq
                  by_cases hpe : pyEq (.list xs) rv = true
                  · rw [if_pos hpe, pure_bind] at heq
                    exact ih c rest l path l2 hl hr4 heq
                  · rw [if_neg hpe] at heq
                    cases c with
                    | error => rw [error_bind] at heq; exact absurd heq (by simp)
                    | overwrite =>
                        rw [pure_bind] at heq
                        exact ih .overwrite rest (setE l k rv) path l2
                          (setE_canon l k rv hl hr3 hr1) hr4 heq

theorem splitEntriesF_canon : ∀ (f : Nat) (m acc t : Entries),
    canonE acc = true → splitEntriesF f m acc = .ok t → canonE t = true := by
  intro f
  induction f using Nat.strong_induction_on with
  | _ f ih =>
      intro m acc t hacc heq
      cases f with
      | zero => simp [splitEntriesF] at heq
      | succ f2 =>
          cases m with
          | nil =>
              simp only [splitEntriesF] at heq
              injection heq with h2
              rw [← h2]
              exact hacc
          | cons e rest =>
              obtain ⟨key, value⟩ := e
              simp only [splitEntriesF] at heq
              cases hv1 : splitValueF f2 value with
              | error e2 => rw [hv1, error_bind] at heq; exact absurd heq (by simp)
              | ok v1 =>
                  rw [hv1, ok_bind] at heq
                  have hv1c : canonV v1 = true := by
                    cases f2 with
                    | zero => simp [splitValueF] at hv1
                    | succ f3 =>
                        cases value with
                        | map es =>
                            simp only [splitValueF] at hv1
                            cases hs : splitEntriesF f3 es [] with
                            | error e3 =>
                                rw [hs, error_bind] at hv1
                                exact absurd hv1 (by simp)
                            | ok es2 =>
                                rw [hs, ok_bind] at hv1
                                injection hv1 with h
                                rw [← h]
                                show canonE es2 = true
                                exact ih f3 (by omega) es [] es2 (by rfl) hs
                        | none => simp only [splitValueF] at hv1; injection hv1 with h; rw [← h]; rfl
                        | bool b => simp only [splitValueF] at hv1; injection hv1 with h; rw [← h]; rfl
                        | int n => simp only [splitValueF] at hv1; injection hv1 with h; rw [← h]; rfl
                        | str s => simp only [splitValueF] at hv1; injection hv1 with h; rw [← h]; rfl
                        | list xs => simp only [splitValueF] at hv1; injection hv1 with h; rw [← h]; rfl
                  cases hkv : splitKvF f2 key v1 with
                  | error e2 => rw [hkv, error_bind] at heq; exact absurd heq (by simp)
                  | ok kv =>
                      rw [hkv, ok_bind] at heq
                      obtain ⟨k2, v2⟩ := kv
                      have hkvc : (splitDot1 k2).isNone = true ∧ canonV v2 = true := by
                        cases f2 with
                        | zero => simp [splitKvF] at hkv
                        | succ f3 =>
                            simp only [splitKvF] at hkv
                            cases hsd : splitDot1 key with
                            | none =>
                                simp only [hsd] at hkv
                                injection hkv with h
                                injection h with ha hb
                                rw [← ha, ← hb]
                                exact ⟨by simp [hsd], hv1c⟩
                            | some p =>
                                obtain ⟨kk, restKey⟩ := p
                                simp only [hsd] at hkv
                                cases hs2 : splitEntriesF f3 [(restKey, v1)] [] with
                                | error e3 =>
                                    rw [hs2, error_bind] at hkv
                                    exact absurd hkv (by simp)
                                | ok m2 =>
                                    rw [hs2, ok_bind] at hkv
                                    injection hkv with h
                                    injection h with ha hb
                                    rw [← ha, ← hb]
                                    refine ⟨splitDot1_first_dotfree key kk restKey hsd, ?_⟩
                                    show canonE m2 = true
                                    exact ih f3 (by omega) [(restKey, v1)] [] m2 (by rfl) hs2
                      cases hmg : mergeInto .error acc [(k2, v2)] [] with
                      | error e2 => rw [hmg, error_bind] at heq; exact absurd heq (by simp)
                      | ok result2 =>
                          rw [hmg, ok_bind] at heq
                          have hsingle : canonE [(k2, v2)] = true := by
                            simp only [canonE, Bool.and_eq_true]
                            exact ⟨⟨⟨hkvc.1, by simp [lookupE]⟩, hkvc.2⟩, by trivial⟩
                          have hres2 : canonE result2 = true :=
                            mergeIntoF_canon (sizeE [(k2, v2)] + 1) .error [(k2, v2)] acc []
                              result2 hacc hsingle hmg
                          exact ih f2 (by omega) rest result2 t hres2 heq

theorem sizeV_pos : ∀ v : Value, 1 ≤ sizeV v := by
  intro v
  cases v <;> simp [sizeV]

theorem mergeSingle_fresh (acc : Entries) (k : String) (v : Value)
    (h : lookupE acc k = Option.none) :
    mergeInto .error acc [(k, v)] [] = .ok (acc ++ [(k, v)]) := by
  unfold mergeInto
  rw [mergeIntoF_cons_absent (sizeE [(k, v)]) .error acc k v [] [] h]
  rw [setE_append_of_absent acc k v h]
  obtain ⟨g, hg⟩ : ∃ g, sizeE [(k, v)] = g + 1 := ⟨sizeE [(k, v)] - 1, by
    have := sizeV_pos v
    simp [sizeE]
    omega⟩
  rw [hg, mergeIntoF_nil]

theorem splitEntriesF_canon_fix : ∀ (f : Nat) (rem acc : Entries),
    canonE (acc ++ rem) = true → 2 * sizeE rem < f →
    splitEntriesF f rem acc = .ok (acc ++ rem) := by
  intro f
  induction f using Nat.strong_induction_on with
  | _ f ih =>
      intro rem acc hcanon hfuel
      cases f with
      | zero => omega
      | succ f2 =>
          cases rem with
          | nil => simp [splitEntriesF]
          | cons e rest =>
              obtain ⟨k, v⟩ := e
              obtain ⟨ha, hb, hc, hd, he⟩ := canonE_append_cons acc k v rest hcanon
              have hszv := sizeV_pos v
              have hsz : sizeE ((k, v) :: rest) = 1 + k.length + sizeV v + sizeE rest := by
                simp [sizeE]
              simp only [splitEntriesF]
              have hval : splitValueF f2 v = .ok v := by
                cases v with
                | map es =>
                    cases f2 with
                    | zero => rw [hsz] at hfuel; omega
                    | succ f3 =>
                        have hsv : sizeV (Value.map es) = 1 + sizeE es := by simp [sizeV]
                        simp only [splitValueF]
                        rw [ih f3 (by omega) es [] (by simpa using hc)
                          (by rw [hsz, hsv] at hfuel; omega)]
                        rfl
                | none =>
                    cases f2 with
                    | zero => rw [hsz] at hfuel; omega
                    | succ f3 => rfl
                | bool b =>
                    cases f2 with
                    | zero => rw [hsz] at hfuel; omega
                    | succ f3 => rfl
                | int n =>
                    cases f2 with
                    | zero => rw [hsz] at hfuel; omega
                    | succ f3 => rfl
                | str s =>
                    cases f2 with
                    | zero => rw [hsz] at hfuel; omega
                    | succ f3 => rfl
                | list xs =>
                    cases f2 with
                    | zero => rw [hsz] at hfuel; omega
                    | succ f3 => rfl
              rw [hval, ok_bind]
              have hkv : splitKvF f2 k v = .ok (k, v) := by
                cases f2 with
                | zero => rw [hsz] at hfuel; omega
                | succ f3 =>
                    simp only [splitKvF]
                    rw [Option.isNone_iff_eq_none] at hb
                    simp [hb]
                    rfl
              rw [hkv, ok_bind]
              rw [mergeSingle_fresh acc k v hd, ok_bind]
              have hrec := ih f2 (by omega) rest (acc ++ [(k, v)])
                (by rw [List.append_assoc]; simpa using hcanon)
                (by rw [hsz] at hfuel; omega)
              rw [hrec]
              rw [List.append_assoc]
              rfl

/-- C6: key splitting is idempotent — whenever splitting a mapping
succeeds, splitting the result again returns it unchanged (the output has
separator-free unique keys at every level, on which the splitter is the
identity). -/
theorem C6_split_keys_idempotent (m t : Entries) (h : split_keys m = .ok t) :
    split_keys t = .ok t := by
  have hcanon : canonE t = true :=
    splitEntriesF_canon ((sizeE m + 1) * (sizeE m + 1)) m [] t (by rfl) h
  have hfuel : 2 * sizeE t < (sizeE t + 1) * (sizeE t + 1) := by nlinarith
  have := splitEntriesF_canon_fix ((sizeE t + 1) * (sizeE t + 1)) t [] (by simpa using hcanon) hfuel
  simpa [split_keys] using this

theorem C6_split_keys_idempotent_witness :
    split_keys [("a.b", .int 1), ("a.c", .int 2), ("d", .map [("e.f", .int 3)])]
        = .ok [("a", .map [("b", .int 1), ("c", .int 2)]), ("d", .map [("e", .map [("f", .int 3)])])]
      ∧ split_keys [("a", .map [("b", .int 1), ("c", .int 2)]), ("d", .map [("e", .map [("f", .int 3)])])]
        = .ok [("a", .map [("b", .int 1), ("c", .int 2)]), ("d", .map [("e", .map [("f", .int 3)])])] :=
  ⟨by decide, C6_split_keys_idempotent
    [("a.b", .int 1), ("a.c", .int 2), ("d", .map [("e.f", .int 3)])]
    [("a", .map [("b", .int 1), ("c", .int 2)]), ("d", .map [("e", .map [("f", .int 3)])])]
    (by decide)⟩

/-!
Merge-precedence lemmas: merging a right-hand tree under the overwrite
policy plants its leaves in the result, and a tree that holds nothing at a
path (nor any non-mapping at a prefix of it) leaves the value at that path
unchanged.
-/

theorem findPathE_cons (es : Entries) (h : String) (q : List String) :
    findPathE es (h :: q)
      = (match lookupE es h with
         | some w => findPathV w q
         | Option.none => Option.none) := rfl

theorem lookupE_setE_self (l : Entries) (k : String) (v : Value) :
    lookupE (setE l k v) k = some v := by
  induction l with
  | nil => simp [setE, lookupE]
  | cons e rest ih =>
      obtain ⟨k0, v0⟩ := e
      by_cases hk : k0 = k
      · simp [setE, hk, lookupE]
      · simp [setE, hk, lookupE, ih]

theorem findPathE_setE_ne (l : Entries) (k' h : String) (x : Value) (q : List String)
    (hne : k' ≠ h) : findPathE (setE l k' x) (h :: q) = findPathE l (h :: q) := by
  rw [findPathE_cons, findPathE_cons, lookupE_setE_ne l k' h x (fun hh => hne hh.symm)]

theorem mergeIntoF_untouched_key : ∀ (f : Nat) (c : Conflict) (rgt l : Entries)
    (path : List String) (l2 : Entries) (k : String),
    lookupE rgt k = Option.none → mergeIntoF f c l rgt path = .ok l2 →
    lookupE l2 k = lookupE l k := by
  intro f
  induction f with
  | zero => intro c rgt l path l2 k _ heq; simp [mergeIntoF] at heq
  | succ f ih =>
      intro c rgt l path l2 k hk heq
      cases rgt with
      | nil =>
          rw [mergeIntoF_nil] at heq
          injection heq with h2
          rw [← h2]
      | cons e rest =>
          obtain ⟨k', rv⟩ := e
          have hk' : ¬(k' = k) := by
            intro hh
            simp [lookupE, hh] at hk
          have hkrest : lookupE rest k = Option.none := by
            simpa [lookupE, hk'] using hk
          have hset : ∀ x, lookupE (setE l k' x) k = lookupE l k :=
            fun x => lookupE_setE_ne l k' k x (fun hh => hk' hh.symm)
          cases hlk : lookupE l k' with
          | none =>
              rw [mergeIntoF_cons_absent f c l k' rv rest path hlk] at heq
              rw [ih c rest (setE l k' rv) path l2 k hkrest heq]
              exact hset rv
          | some lv =>
              cases hm : isMap lv && isMap rv with
              | true =>
                  obtain ⟨les, hles⟩ : ∃ les, lv = .map les := by
                    cases lv <;> simp [isMap] at hm ⊢
                  obtain ⟨res, hres⟩ : ∃ res, rv = .map res := by
                    cases rv <;> simp [isMap] at hm ⊢
                  subst hles
                  subst hres
                  rw [mergeIntoF_cons_map_map f c l k' les res rest path hlk] at heq
                  cases hmg : mergeIntoF f c les res (path ++ [k']) with
                  | error e2 => rw [hmg, error_bind] at heq; exact absurd heq (by simp)
                  | ok merged =>
                      rw [hmg, ok_bind] at heq
                      rw [ih c rest (setE l k' (.map merged)) path l2 k hkrest heq]
                      exact hset (.map merged)
              | false =>
                  have hnm : ¬(isMap lv = true ∧ isMap rv = true) := by
                    intro hcon
                    simp [hcon.1, hcon.2] at hm
                  rw [mergeIntoF_cons_other f c l k' lv rv rest path hlk hnm] at heq
                  by_cases hpe : pyEq lv rv = true
                  · rw [if_pos hpe, pure_bind] at heq
                    exact ih c rest l path l2 k hkrest heq
                  · rw [if_neg hpe] at heq
                    cases c with
                    | error => rw [error_bind] at heq; exact absurd heq (by simp)
                    | overwrite =>
                        rw [pure_bind] at heq
                        rw [ih .overwrite rest (setE l k' rv) path l2 k hkrest heq]
                        exact hset rv

theorem pyEq_map_right (lv : Value) (res : Entries) (h : pyEq lv (.map res) = true) :
    isMap lv = true := by
  cases lv <;> simp [pyEq, isMap] at h ⊢

theorem mergeIntoF_plants : ∀ (f : Nat) (rgt l : Entries) (path : List String)
    (l2 : Entries) (p : List String) (v : Value),
    canonE rgt = true →
    findPathE rgt p = some v → isMap v = false → p ≠ [] →
    mergeIntoF f .overwrite l rgt path = .ok l2 →
    ∃ w, findPathE l2 p = some w ∧ isMap w = false ∧ (w = v ∨ pyEq w v = true) := by
  intro f
  induction f with
  | zero => intro rgt l path l2 p v _ _ _ _ heq; simp [mergeIntoF] at heq
  | succ f ih =>
      intro rgt l path l2 p v hcanon hfind hv hp heq
      obtain ⟨h0, tail⟩ : ∃ h0 tail, p = h0 :: tail := by
        cases p with
        | nil => exact absurd rfl hp
        | cons a b => exact ⟨a, b, rfl⟩
      obtain ⟨tail, rfl⟩ := tail
      cases rgt with
      | nil => simp [findPathE, findPathV, lookupE] at hfind
      | cons e rest =>
          obtain ⟨k', rv⟩ := e
          simp only [canonE, Bool.and_eq_true] at hcanon
          obtain ⟨⟨⟨hc1, hc2⟩, hc3⟩, hc4⟩ := hcanon
          have hc2' : lookupE rest k' = Option.none := by
            cases hx : lookupE rest k' <;> simp [hx, Option.isNone] at hc2 ⊢
          by_cases hhead : k' = h0
          · subst hhead
            have hfindv : findPathV rv tail = some v := by
              rw [findPathE_cons] at hfind
              simpa [lookupE] using hfind
            cases hlk : lookupE l k' with
            | none =>
                rw [mergeIntoF_cons_absent f .overwrite l k' rv rest path hlk] at heq
                have hl2k : lookupE l2 k' = some rv := by
                  rw [mergeIntoF_untouched_key f .overwrite rest (setE l k' rv) path l2 k'
                      hc2' heq]
                  exact lookupE_setE_self l k' rv
                refine ⟨v, ?_, hv, Or.inl rfl⟩
                rw [findPathE_cons, hl2k]
                exact hfindv
            | some lv =>
                cases hm : isMap lv && isMap rv with
                | true =>
                    obtain ⟨les, hles⟩ : ∃ les, lv = .map les := by
                      cases lv <;> simp [isMap] at hm ⊢
                    obtain ⟨res, hres⟩ : ∃ res, rv = .map res := by
                      cases rv <;> simp [isMap] at hm ⊢
                    subst hles
                    subst hres
                    rw [mergeIntoF_cons_map_map f .overwrite l k' les res rest path hlk] at heq
                    cases hmg : mergeIntoF f .overwrite les res (path ++ [k']) with
                    | error e2 => rw [hmg, error_bind] at heq; exact absurd heq (by simp)
                    | ok merged =>
                        rw [hmg, ok_bind] at heq
                        cases tail with
                        | nil =>
                            injection hfindv with hvv
                            rw [← hvv] at hv
                            simp [isMap] at hv
                        | cons t0 ts =>
                            have hsub : findPathE res (t0 :: ts) = some v := hfindv
                            obtain ⟨w, hw1, hw2, hw3⟩ :=
                              ih res les (path ++ [k']) merged (t0 :: ts) v hc3 hsub hv
                                (by simp) hmg
                            have hl2k : lookupE l2 k' = some (.map merged) := by
                              rw [mergeIntoF_untouched_key f .overwrite rest
                                  (setE l k' (.map merged)) path l2 k' hc2' heq]
                              exact lookupE_setE_self l k' (.map merged)
                            refine ⟨w, ?_, hw2, hw3⟩
                            rw [findPathE_cons, hl2k]
                            exact hw1
                | false =>
                    have hnm : ¬(isMap lv = true ∧ isMap rv = true) := by
                      intro hcon
                      simp [hcon.1, hcon.2] at hm
                    rw [mergeIntoF_cons_other f .overwrite l k' lv rv rest path hlk hnm] at heq
                    by_cases hpe : pyEq lv rv = true
                    · rw [if_pos hpe, pure_bind] at heq
                      have hl2k : lookupE l2 k' = some lv := by
                        rw [mergeIntoF_untouched_key f .overwrite rest l path l2 k' hc2' heq]
                        exact hlk
                      cases tail with
                      | nil =>
                          have hvv : rv = v := by
                            simp [findPathV] at hfindv
                            exact hfindv
                          refine ⟨lv, ?_, ?_, Or.inr (hvv ▸ hpe)⟩
                          · rw [findPathE_cons, hl2k]
                            simp [findPathV]
                          · by_contra hmap
                            obtain ⟨les, hles⟩ : ∃ les, lv = .map les := by
                              cases lv <;> simp [isMap] at hmap ⊢
                            subst hles
                            have : isMap rv = true := by
                              cases rv <;> simp [pyEq, isMap] at hpe ⊢
                            rw [← hvv] at hv
                            exact absurd this (by simp [hv])
                      | cons t0 ts =>
                          obtain ⟨res, hres⟩ : ∃ res, rv = .map res := by
                            cases rv <;> first
                              | (exact ⟨_, rfl⟩)
                              | simp [findPathV] at hfindv
                          subst hres
                          have : isMap lv = true := pyEq_map_right lv res hpe
                          exact absurd hm (by rw [this]; simp [isMap])
                    · rw [if_neg hpe, pure_bind] at heq
                      have hl2k : lookupE l2 k' = some rv := by
                        rw [mergeIntoF_untouched_key f .overwrite rest (setE l k' rv) path l2 k'
                            hc2' heq]
                        exact lookupE_setE_self l k' rv
                      refine ⟨v, ?_, hv, Or.inl rfl⟩
                      rw [findPathE_cons, hl2k]
                      exact hfindv
          · have hfrest : findPathE rest (h0 :: tail) = some v := by
              rw [findPathE_cons] at hfind ⊢
              simpa [lookupE, hhead] using hfind
            cases hlk : lookupE l k' with
            | none =>
                rw [mergeIntoF_cons_absent f .overwrite l k' rv rest path hlk] at heq
                exact ih rest (setE l k' rv) path l2 (h0 :: tail) v hc4 hfrest hv (by simp) heq
            | some lv =>
                cases hm : isMap lv && isMap rv with
                | true =>
                    obtain ⟨les, hles⟩ : ∃ les, lv = .map les := by
                      cases lv <;> simp [isMap] at hm ⊢
                    obtain ⟨res, hres⟩ : ∃ res, rv = .map res := by
                      cases rv <;> simp [isMap] at hm ⊢
                    subst hles
                    subst hres
                    rw [mergeIntoF_cons_map_map f .overwrite l k' les res rest path hlk] at heq
                    cases hmg : mergeIntoF f .overwrite les res (path ++ [k']) with
                    | error e2 => rw [hmg, error_bind] at heq; exact absurd heq (by simp)
                    | ok merged =>
                        rw [hmg, ok_bind] at heq
                        exact ih rest (setE l k' (.map merged)) path l2 (h0 :: tail) v hc4
                          hfrest hv (by simp) heq
                | false =>
                    have hnm : ¬(isMap lv = true ∧ isMap rv = true) := by
                      intro hcon
                      simp [hcon.1, hcon.2] at hm
                    rw [mergeIntoF_cons_other f .overwrite l k' lv rv rest path hlk hnm] at heq
                    by_cases hpe : pyEq lv rv = true
                    · rw [if_pos hpe, pure_bind] at heq
                      exact ih rest l path l2 (h0 :: tail) v hc4 hfrest hv (by simp) heq
                    · rw [if_neg hpe, pure_bind] at heq
                      exact ih rest (setE l k' rv) path l2 (h0 :: tail) v hc4 hfrest hv
                        (by simp) heq

/-- Whether an optional value is present and a mapping. -/
def isMapSome : Option Value → Bool
  | some (.map _) => true
  | _ => false

/-- A tree does not clobber a path: it stores nothing at the path itself,
and at every proper non-empty prefix of it stores either nothing or a
mapping (so merging the tree can never overwrite or submerge-overwrite the
value another source put at that path). -/
def noClobber (t : Entries) (p : List String) : Prop :=
  ∀ i, i < p.length →
    (findPathE t (p.take (i + 1)) = Option.none
     ∨ (i + 1 < p.length ∧ isMapSome (findPathE t (p.take (i + 1))) = true))

instance (t : Entries) (p : List String) : Decidable (noClobber t p) := by
  unfold noClobber
  infer_instance

theorem findPathE_cons_ne (k' : String) (rv : Value) (rest : Entries) (h0 : String)
    (q : List String) (hne : k' ≠ h0) :
    findPathE ((k', rv) :: rest) (h0 :: q) = findPathE rest (h0 :: q) := by
  rw [findPathE_cons, findPathE_cons]
  simp [lookupE, hne]

theorem noClobber_tail (rgt : Entries) (h0 t0 : String) (ts : List String) (res : Entries)
    (hlk : lookupE rgt h0 = some (.map res))
    (hnc : noClobber rgt (h0 :: t0 :: ts)) : noClobber res (t0 :: ts) := by
  intro i hi
  have hii : i + 1 < (h0 :: t0 :: ts).length := by
    simp at hi ⊢
    omega
  have hstep := hnc (i + 1) hii
  have hshape : (h0 :: t0 :: ts).take (i + 1 + 1) = h0 :: (t0 :: ts).take (i + 1) :=
    List.take_succ_cons
  rw [hshape] at hstep
  have heq2 : findPathE rgt (h0 :: (t0 :: ts).take (i + 1))
      = findPathE res ((t0 :: ts).take (i + 1)) := by
    rw [findPathE_cons, hlk]
    rfl
  rw [heq2] at hstep
  rcases hstep with h | ⟨hlen, hms⟩
  · exact Or.inl h
  · refine Or.inr ⟨?_, hms⟩
    simp at hlen ⊢
    omega

theorem noClobber_rest (k' : String) (rv : Value) (rest : Entries) (h0 : String)
    (tail : List String) (hne : k' ≠ h0)
    (hnc : noClobber ((k', rv) :: rest) (h0 :: tail)) : noClobber rest (h0 :: tail) := by
  intro i hi
  have hstep := hnc i hi
  have hshape : (h0 :: tail).take (i + 1) = h0 :: tail.take i := List.take_succ_cons
  rw [hshape] at hstep ⊢
  rw [findPathE_cons_ne k' rv rest h0 (tail.take i) hne] at hstep
  exact hstep

theorem noClobber_last (t : Entries) (p : List String) (hp : p ≠ [])
    (hnc : noClobber t p) : findPathE t p = Option.none := by
  have hlen : 0 < p.length := List.length_pos.mpr hp
  have hstep := hnc (p.length - 1) (by omega)
  have hshape : p.take (p.length - 1 + 1) = p := by
    rw [show p.length - 1 + 1 = p.length from by omega]
    exact List.take_length p
  rw [hshape] at hstep
  rcases hstep with h | ⟨hlt, _⟩
  · exact h
  · omega

theorem mergeIntoF_preserves : ∀ (f : Nat) (rgt l : Entries) (path : List String)
    (l2 : Entries) (p : List String),
    canonE rgt = true → p ≠ [] → noClobber rgt p →
    mergeIntoF f .overwrite l rgt path = .ok l2 →
    findPathE l2 p = findPathE l p := by
  intro f
  induction f with
  | zero => intro rgt l path l2 p _ _ _ heq; simp [mergeIntoF] at heq
  | succ f ih =>
      intro rgt l path l2 p hcanon hp hnc heq
      obtain ⟨h0, tail⟩ : ∃ h0 tail, p = h0 :: tail := by
        cases p with
        | nil => exact absurd rfl hp
        | cons a b => exact ⟨a, b, rfl⟩
      obtain ⟨tail, rfl⟩ := tail
      cases rgt with
      | nil =>
          rw [mergeIntoF_nil] at heq
          injection heq with h2
          rw [← h2]
      | cons e rest =>
          obtain ⟨k', rv⟩ := e
          simp only [canonE, Bool.and_eq_true] at hcanon
          obtain ⟨⟨⟨hc1, hc2⟩, hc3⟩, hc4⟩ := hcanon
          have hc2' : lookupE rest k' = Option.none := by
            cases hx : lookupE rest k' <;> simp [hx, Option.isNone] at hc2 ⊢
          by_cases hhead : k' = h0
          · subst hhead
            have hlkr : lookupE ((k', rv) :: rest) k' = some rv := by simp [lookupE]
            have h0step := hnc 0 (by simp)
            have hshape0 : (k' :: tail).take 1 = [k'] := rfl
            rw [hshape0] at h0step
            have hself : findPathE ((k', rv) :: rest) [k'] = some rv := by
              rw [findPathE_cons, hlkr]
              simp [findPathV]
            rcases h0step with hno | ⟨hlen1, hms⟩
            · rw [hself] at hno
              exact absurd hno (by simp)
            · rw [hself] at hms
              obtain ⟨res, hres⟩ : ∃ res, rv = .map res := by
                cases rv <;> simp [isMapSome] at hms ⊢
              subst hres
              obtain ⟨t0, ts⟩ : ∃ t0 ts, tail = t0 :: ts := by
                cases tail with
                | nil => simp at hlen1
                | cons a b => exact ⟨a, b, rfl⟩
              obtain ⟨ts, rfl⟩ := ts
              have hlast : findPathE ((k', .map res) :: rest) (k' :: t0 :: ts)
                  = Option.none := noClobber_last _ _ (by simp) hnc
              have hressub : findPathE res (t0 :: ts) = Option.none := by
                rw [findPathE_cons, hlkr] at hlast
                exact hlast
              cases hlk : lookupE l k' with
              | none =>
                  rw [mergeIntoF_cons_absent f .overwrite l k' (.map res) rest path hlk] at heq
                  have hl2k : lookupE l2 k' = some (.map res) := by
                    rw [mergeIntoF_untouched_key f .overwrite rest (setE l k' (.map res))
                        path l2 k' hc2' heq]
                    exact lookupE_setE_self l k' (.map res)
                  rw [findPathE_cons, hl2k, findPathE_cons, hlk]
                  exact hressub
              | some lv =>
                  cases hm : isMap lv with
                  | true =>
                      obtain ⟨les, hles⟩ : ∃ les, lv = .map les := by
                        cases lv <;> simp [isMap] at hm ⊢
                      subst hles
                      rw [mergeIntoF_cons_map_map f .overwrite l k' les res rest path hlk] at heq
                      cases hmg : mergeIntoF f .overwrite les res (path ++ [k']) with
                      | error e2 => rw [hmg, error_bind] at heq; exact absurd heq (by simp)
                      | ok merged =>
                          rw [hmg, ok_bind] at heq
                          have hl2k : lookupE l2 k' = some (.map merged) := by
                            rw [mergeIntoF_untouched_key f .overwrite rest
                                (setE l k' (.map merged)) path l2 k' hc2' heq]
                            exact lookupE_setE_self l k' (.map merged)
                          have hncres : noClobber res (t0 :: ts) :=
                            noClobber_tail ((k', .map res) :: rest) k' t0 ts res hlkr hnc
                          have hpres := ih res les (path ++ [k']) merged (t0 :: ts)
                            hc3 (by simp) hncres hmg
                          rw [findPathE_cons, hl2k, findPathE_cons, hlk]
                          exact hpres
                  | false =>
                      have hm2 : (isMap lv && isMap (Value.map res)) = false := by
                        rw [hm]
                        rfl
                      have hnm : ¬(isMap lv = true ∧ isMap (Value.map res) = true) := by
                        intro hcon
                        rw [hcon.1] at hm2
                        simp [isMap] at hm2
                      rw [mergeIntoF_cons_other f .overwrite l k' lv (.map res) rest path
                          hlk hnm] at heq
                      have hpe : ¬(pyEq lv (.map res) = true) := by
                        intro hcon
                        rw [pyEq_map_right lv res hcon] at hm
                        exact absurd hm (by simp)
                      rw [if_neg hpe, pure_bind] at heq
                      have hl2k : lookupE l2 k' = some (.map res) := by
                        rw [mergeIntoF_untouched_key f .overwrite rest (setE l k' (.map res))
                            path l2 k' hc2' heq]
                        exact lookupE_setE_self l k' (.map res)
                      rw [findPathE_cons, hl2k, findPathE_cons, hlk]
                      show findPathE res (t0 :: ts) = findPathV lv (t0 :: ts)
                      rw [hressub]
                      cases lv <;> first
                        | rfl
                        | (simp [isMap] at hm)
          · have hncr : noClobber rest (h0 :: tail) :=
              noClobber_rest k' rv rest h0 tail hhead hnc
            have hsetpres : ∀ x, findPathE (setE l k' x) (h0 :: tail) = findPathE l (h0 :: tail) :=
              fun x => findPathE_setE_ne l k' h0 x tail hhead
            cases hlk : lookupE l k' with
            | none =>
                rw [mergeIntoF_cons_absent f .overwrite l k' rv rest path hlk] at heq
                rw [ih rest (setE l k' rv) path l2 (h0 :: tail) hc4 (by simp) hncr heq]
                exact hsetpres rv
            | some lv =>
                cases hm : isMap lv && isMap rv with
                | true =>
                    obtain ⟨les, hles⟩ : ∃ les, lv = .map les := by
                      cases lv <;> simp [isMap] at hm ⊢
                    obtain ⟨res, hres⟩ : ∃ res, rv = .map res := by
                      cases rv <;> simp [isMap] at hm ⊢
                    subst hles
                    subst hres
                    rw [mergeIntoF_cons_map_map f .overwrite l k' les res rest path hlk] at heq
                    cases hmg : mergeIntoF f .overwrite les res (path ++ [k']) with
                    | error e2 => rw [hmg, error_bind] at heq; exact absurd heq (by simp)
                    | ok merged =>
                        rw [hmg, ok_bind] at heq
                        rw [ih rest (setE l k' (.map merged)) path l2 (h0 :: tail) hc4
                            (by simp) hncr heq]
                        exact hsetpres (.map merged)
                | false =>
                    have hnm : ¬(isMap lv = true ∧ isMap rv = true) := by
                      intro hcon
                      simp [hcon.1, hcon.2] at hm
                    rw [mergeIntoF_cons_other f .overwrite l k' lv rv rest path hlk hnm] at heq
                    by_cases hpe : pyEq lv rv = true
                    · rw [if_pos hpe, pure_bind] at heq
                      exact ih rest l path l2 (h0 :: tail) hc4 (by simp) hncr heq
                    · rw [if_neg hpe, pure_bind] at heq
                      rw [ih rest (setE l k' rv) path l2 (h0 :: tail) hc4 (by simp) hncr heq]
                      exact hsetpres rv

theorem split_keys_canon (s t : Entries) (h : split_keys s = .ok t) : canonE t = true :=
  splitEntriesF_canon ((sizeE s + 1) * (sizeE s + 1)) s [] t rfl h

theorem initSources_preserves : ∀ (srcs : List Entries) (acc acc2 : Entries)
    (p : List String),
    p ≠ [] →
    (∀ s t2, s ∈ srcs → split_keys s = .ok t2 → noClobber t2 p) →
    initSources srcs acc = .ok acc2 →
    findPathE acc2 p = findPathE acc p := by
  intro srcs
  induction srcs with
  | nil =>
      intro acc acc2 p _ _ heq
      simp only [initSources] at heq
      injection heq with h2
      rw [h2]
  | cons s rest ih =>
      intro acc acc2 p hp hnc heq
      simp only [initSources] at heq
      by_cases hemp : s.isEmpty
      · rw [if_pos hemp] at heq
        exact ih acc acc2 p hp (fun s2 t2 hm => hnc s2 t2 (List.mem_cons_of_mem s hm)) heq
      · rw [if_neg hemp] at heq
        cases hsp : split_keys s with
        | error e => rw [hsp, error_bind] at heq; exact absurd heq (by simp)
        | ok t =>
            rw [hsp, ok_bind] at heq
            cases hmg : mergeInto .overwrite acc t [] with
            | error e => rw [hmg, error_bind] at heq; exact absurd heq (by simp)
            | ok acc1 =>
                rw [hmg, ok_bind] at heq
                have hstep : findPathE acc1 p = findPathE acc p :=
                  mergeIntoF_preserves (sizeE t + 1) t acc [] acc1 p
                    (split_keys_canon s t hsp) hp
                    (hnc s t (List.mem_cons_self s rest) hsp) hmg
                rw [ih acc1 acc2 p hp (fun s2 t2 hm => hnc s2 t2 (List.mem_cons_of_mem s hm))
                    heq]
                exact hstep

theorem initSources_append : ∀ (xs ys : List Entries) (acc : Entries),
    initSources (xs ++ ys) acc
      = (match initSources xs acc with
         | .ok a2 => initSources ys a2
         | .error e => .error e) := by
  intro xs
  induction xs with
  | nil =>
      intro ys acc
      simp [initSources]
  | cons s rest ih =>
      intro ys acc
      rw [List.cons_append]
      simp only [initSources]
      by_cases hemp : s.isEmpty
      · rw [if_pos hemp, if_pos hemp]
        exact ih ys acc
      · rw [if_neg hemp, if_neg hemp]
        cases hsp : split_keys s with
        | error e =>
            rw [error_bind, error_bind]
        | ok t =>
            rw [ok_bind, ok_bind]
            cases hmg : mergeInto .overwrite acc t [] with
            | error e => rw [error_bind, error_bind]
            | ok acc2 =>
                rw [ok_bind, ok_bind]
                exact ih ys acc2

/-- C2: counterexample.  The sources `{"a.b": 1}`, `{"a.b": 2}`, `{"a": 5}`
have the key `a.b` present with different leaf values in the first two, and
the rightmost source containing `a.b` is the second (the third holds only
the scalar `a`).  Yet the constructed tree is just `{"a": 5}`: it holds no
value at `a.b` at all, because the later source's scalar at the prefix `a`
overwrote the whole `a` namespace.  So the constructed value at a key does
not always equal the value from the rightmost source containing it. -/
theorem C2_counterexample_later_source_clobbers_dotted_key :
    initSources [[("a.b", .int 1)], [("a.b", .int 2)], [("a", .int 5)]] []
      = .ok [("a", .int 5)]
    ∧ split_keys [("a.b", .int 1)] = .ok [("a", .map [("b", .int 1)])]
    ∧ split_keys [("a.b", .int 2)] = .ok [("a", .map [("b", .int 2)])]
    ∧ split_keys [("a", .int 5)] = .ok [("a", .int 5)]
    ∧ findPathE [("a", .map [("b", .int 1)])] ["a", "b"] = some (.int 1)
    ∧ findPathE [("a", .map [("b", .int 2)])] ["a", "b"] = some (.int 2)
    ∧ findPathE [("a", .int 5)] ["a", "b"] = Option.none
    ∧ findPathE [("a", .int 5)] ["a"] = some (.int 5) := by
  decide

/-- C2: amended merge precedence.  Construction merges the key-split
sources left to right under the overwrite policy: whenever some source
`sk` stores a non-mapping leaf at a dotted path (so in particular when the
path is present with different leaf values in several sources and `sk` is
the rightmost one containing it), and no later source clobbers that path —
each later source's split tree stores nothing at the path and nothing but
mappings at its proper prefixes — then the constructed tree stores at that
path a non-mapping value that is the leaf itself or Python-`==` to it (the
merge keeps the older, `==`-equal value object when values compare equal,
and overwrites otherwise). -/
theorem C2_merge_precedence_rightmost_wins (pre post : List Entries)
    (sk tk cfgE : Entries) (p : List String) (v : Value)
    (hsk : split_keys sk = .ok tk)
    (hv : findPathE tk p = some v)
    (hnm : isMap v = false)
    (hp : p ≠ [])
    (hpost : ∀ s t2, s ∈ post → split_keys s = .ok t2 → noClobber t2 p)
    (hcfg : initSources (pre ++ sk :: post) [] = .ok cfgE) :
    ∃ w, findPathE cfgE p = some w ∧ isMap w = false
      ∧ (w = v ∨ pyEq w v = true) := by
  rw [initSources_append pre (sk :: post) []] at hcfg
  cases hpre : initSources pre [] with
  | error e => rw [hpre] at hcfg; exact absurd hcfg (by simp)
  | ok acc0 =>
      rw [hpre] at hcfg
      have hsknil : ¬(sk.isEmpty = true) := by
        intro hcon
        have hnil : sk = [] := by
          cases sk with
          | nil => rfl
          | cons a b => simp [List.isEmpty] at hcon
        subst hnil
        have htk : tk = [] := by
          have : split_keys ([] : Entries) = .ok [] := by decide
          rw [this] at hsk
          injection hsk with h2
          exact h2.symm
        subst htk
        cases p with
        | nil => exact absurd rfl hp
        | cons a b => simp [findPathE, findPathV, lookupE] at hv
      simp only [initSources] at hcfg
      rw [if_neg hsknil, hsk, ok_bind] at hcfg
      cases hmg : mergeInto .overwrite acc0 tk [] with
      | error e => rw [hmg, error_bind] at hcfg; exact absurd hcfg (by simp)
      | ok acc1 =>
          rw [hmg, ok_bind] at hcfg
          obtain ⟨w, hw1, hw2, hw3⟩ :=
            mergeIntoF_plants (sizeE tk + 1) tk acc0 [] acc1 p v
              (split_keys_canon sk tk hsk) hv hnm hp hmg
          refine ⟨w, ?_, hw2, hw3⟩
          rw [initSources_preserves post acc1 cfgE p hp hpost hcfg]
          exact hw1

theorem C2_merge_precedence_rightmost_wins_witness :
    ∃ w, findPathE [("x", Value.int 1), ("ns", Value.map [("b", Value.int 3)]),
          ("a", Value.int 7)] ["ns", "b"] = some w
      ∧ isMap w = false ∧ (w = Value.int 3 ∨ pyEq w (Value.int 3) = true) :=
  C2_merge_precedence_rightmost_wins [[("x", Value.int 1)]] [[("a", Value.int 7)]]
    [("ns.b", Value.int 3)] [("ns", Value.map [("b", Value.int 3)])]
    [("x", Value.int 1), ("ns", Value.map [("b", Value.int 3)]), ("a", Value.int 7)]
    ["ns", "b"] (Value.int 3) (by decide) (by decide) (by decide) (by decide)
    (fun s t2 hs hsp => by
      rw [List.mem_singleton] at hs
      subst hs
      have hcomp : split_keys [("a", Value.int 7)] = .ok [("a", Value.int 7)] := by decide
      rw [hcomp] at hsp
      injection hsp with h2
      subst h2
      decide)
    (by decide)

/-!
Simple trees: lookups in them are inert (no references to resolve, no
sequences, single-step keys), so `dict(self)` is just the source tree with
each value wrapped, and `Mapping.__eq__` computes plain Python `==` of the
unwrapped trees.
-/

/-- `dict(self)` of a simple tree: each value wrapped by the lookup. -/
def wrapItems (es root : Entries) : List (String × PyObj) :=
  es.map fun e => (e.1, wrapNR root e.2)

/-- `dict(other)` for a plain mapping: each value as a plain object. -/
def rawItems (es : Entries) : List (String × PyObj) :=
  es.map fun e => (e.1, PyObj.raw e.2)

theorem noDot_of_splitDot1L_none : ∀ (l : List Char), splitDot1L l = Option.none → '.' ∉ l := by
  intro l
  induction l with
  | nil => intro _ h; simp at h
  | cons c rest ih =>
      intro h
      by_cases hc : c = '.'
      · simp [splitDot1L, hc] at h
      · simp only [splitDot1L, if_neg hc] at h
        cases hr : splitDot1L rest with
        | some p => rw [hr] at h; simp at h
        | none =>
            intro hmem
            rcases List.mem_cons.mp hmem with hmem | hmem
            · exact hc hmem.symm
            · exact ih hr hmem

theorem splitDotsAux_noDot : ∀ (l cur : List Char), '.' ∉ l →
    splitDotsAux cur l = [cur.reverse ++ l] := by
  intro l
  induction l with
  | nil => intro cur _; simp [splitDotsAux]
  | cons c rest ih =>
      intro cur h
      have hc : ¬(c = '.') := fun hh => h (by simp [hh])
      rw [show splitDotsAux cur (c :: rest)
          = if c = '.' then cur.reverse :: splitDotsAux [] rest
            else splitDotsAux (c :: cur) rest from rfl]
      rw [if_neg hc, ih (c :: cur) (fun hh => h (by simp [hh]))]
      simp

theorem splitDots_dotfree (k : String) (h : (splitDot1 k).isNone = true) :
    splitDots k = [k] := by
  have hl : splitDot1L k.toList = Option.none := by
    unfold splitDot1 at h
    cases hx : splitDot1L k.toList with
    | none => rfl
    | some p => rw [hx] at h; simp [Option.isNone] at h
  have hnd : '.' ∉ k.toList := noDot_of_splitDot1L_none k.toList hl
  unfold splitDots
  rw [splitDotsAux_noDot k.toList [] hnd]
  simp

theorem simple_lookup (l : Entries) (k : String) (v : Value)
    (hl : simpleE l = true) (h : lookupE l k = some v) : simpleV v = true := by
  induction l with
  | nil => simp [lookupE] at h
  | cons e rest ih =>
      obtain ⟨k0, v0⟩ := e
      simp only [simpleE, Bool.and_eq_true] at hl
      obtain ⟨⟨⟨h1, h2⟩, h3⟩, h4⟩ := hl
      by_cases hk : k0 = k
      · simp only [lookupE, if_pos hk] at h
        injection h with hv
        exact hv ▸ h3
      · simp only [lookupE, if_neg hk] at h
        exact ih h4 h

theorem simple_key_dotfree (l : Entries) (k : String) (v : Value)
    (hl : simpleE l = true) (h : lookupE l k = some v) : (splitDot1 k).isNone = true := by
  induction l with
  | nil => simp [lookupE] at h
  | cons e rest ih =>
      obtain ⟨k0, v0⟩ := e
      simp only [simpleE, Bool.and_eq_true] at hl
      obtain ⟨⟨⟨h1, h2⟩, h3⟩, h4⟩ := hl
      by_cases hk : k0 = k
      · exact hk ▸ h1
      · simp only [lookupE, if_neg hk] at h
        exact ih h4 h

theorem mem_lookup_exists : ∀ (l : Entries) (k : String) (v : Value),
    (k, v) ∈ l → ∃ w, lookupE l k = some w := by
  intro l
  induction l with
  | nil => intro k v h; simp at h
  | cons e rest ih =>
      intro k v h
      obtain ⟨k0, v0⟩ := e
      by_cases hk : k0 = k
      · exact ⟨v0, by simp [lookupE, hk]⟩
      · rcases List.mem_cons.mp h with h | h
        · injection h with ha hb
          exact absurd ha.symm hk
        · obtain ⟨w, hw⟩ := ih k v h
          exact ⟨w, by simp [lookupE, hk, hw]⟩

theorem mem_lookup_simple : ∀ (l : Entries) (k : String) (v : Value),
    simpleE l = true → (k, v) ∈ l → lookupE l k = some v := by
  intro l
  induction l with
  | nil => intro k v _ h; simp at h
  | cons e rest ih =>
      intro k v hl h
      obtain ⟨k0, v0⟩ := e
      simp only [simpleE, Bool.and_eq_true] at hl
      obtain ⟨⟨⟨h1, h2⟩, h3⟩, h4⟩ := hl
      rcases List.mem_cons.mp h with h | h
      · injection h with ha hb
        simp [lookupE, ha.symm, hb]
      · by_cases hk : k0 = k
        · obtain ⟨w, hw⟩ := mem_lookup_exists rest k v h
          rw [← hk] at hw
          rw [hw] at h2
          simp [Option.isNone] at h2
        · simp only [lookupE, if_neg hk]
          exact ih k v h4 h

theorem getO_simple (t root : Entries) (k : String) (v : Value)
    (ht : simpleE t = true) (hlk : lookupE t k = some v) :
    getO t root k .noDflt = .ok (wrapNR root v) := by
  have hdf : (splitDot1 k).isNone = true := simple_key_dotfree t k v ht hlk
  have hsv : simpleV v = true := simple_lookup t k v ht hlk
  have hsp : splitDots k = [k] := splitDots_dotfree k hdf
  have hfp : findPathV (.map t) [k] = some v := by
    simp [findPathV, hlk]
  have hw : walkSteps (.map t) (splitDots k) [] = .ok v := by
    rw [hsp]
    exact walkV_ok [k] (.map t) v [] hfp
  unfold getO
  rw [hw]
  cases v with
  | str s =>
      have hnr : findRefL s.toList = Option.none := by
        cases hx : findRefL s.toList with
        | none => rfl
        | some p =>
            rw [show simpleV (Value.str s) = (findRefL s.toList).isNone from rfl, hx] at hsv
            simp [Option.isNone] at hsv
      show resolveStr root s = .ok (wrapNR root (.str s))
      unfold resolveStr
      rw [show sizeE root + 2 = (sizeE root + 1) + 1 from rfl]
      rw [show (PyObj.raw (.str s)) = (PyObj.raw (.str (String.mk s.toList))) from rfl]
      rw [resolveLoop_nomatch root (sizeE root + 1) s.toList [] hnr]
      rfl
  | none => rfl
  | bool b => rfl
  | int n => rfl
  | list xs => simp [simpleV] at hsv
  | map es => rfl

theorem dictItemsGo_simple : ∀ (rem t root : Entries), simpleE t = true →
    (∀ k v, (k, v) ∈ rem → lookupE t k = some v) →
    dictItemsGo t root rem = .ok (wrapItems rem root) := by
  intro rem
  induction rem with
  | nil => intro t root _ _; rfl
  | cons e rest ih =>
      intro t root ht hmem
      obtain ⟨k, v⟩ := e
      have hlk : lookupE t k = some v := hmem k v (List.mem_cons_self (k, v) rest)
      rw [show dictItemsGo t root ((k, v) :: rest) = (do
          let o ← getO t root k .noDflt
          let tail ← dictItemsGo t root rest
          pure ((k, o) :: tail)) from rfl]
      rw [getO_simple t root k v ht hlk, ok_bind]
      rw [ih t root ht (fun k2 v2 hm => hmem k2 v2 (List.mem_cons_of_mem (k, v) hm)), ok_bind]
      rfl

theorem dictItems_simple (t root : Entries) (ht : simpleE t = true) :
    dictItems t root = .ok (wrapItems t root) :=
  dictItemsGo_simple t t root ht (fun k v hm => mem_lookup_simple t k v ht hm)

theorem lookupPO_wrapItems : ∀ (es root : Entries) (k : String),
    lookupPO (wrapItems es root) k = Option.map (wrapNR root) (lookupE es k) := by
  intro es root k
  induction es with
  | nil => rfl
  | cons e rest ih =>
      obtain ⟨k0, v0⟩ := e
      by_cases hk : k0 = k
      · simp [wrapItems, lookupPO, lookupE, hk]
      · simp only [wrapItems, List.map_cons] at ih ⊢
        simp [lookupPO, lookupE, hk, ih]

theorem lookupPO_rawItems : ∀ (es : Entries) (k : String),
    lookupPO (rawItems es) k = Option.map PyObj.raw (lookupE es k) := by
  intro es k
  induction es with
  | nil => rfl
  | cons e rest ih =>
      obtain ⟨k0, v0⟩ := e
      by_cases hk : k0 = k
      · simp [rawItems, lookupPO, lookupE, hk]
      · simp only [rawItems, List.map_cons] at ih ⊢
        simp [lookupPO, lookupE, hk, ih]

theorem pyObjEqF_cfg_cfg (f : Nat) (t1 r1 t2 r2 : Entries) :
    pyObjEqF (f + 1) (.cfg t1 r1) (.cfg t2 r2) = (do
      let d1 ← dictItems t1 r1
      let d2 ← dictItems t2 r2
      if d1.length = d2.length then allEntriesEqF f d1 d2 else pure false) := rfl

theorem pyObjEqF_cfg_rawmap (f : Nat) (t1 r1 d : Entries) :
    pyObjEqF (f + 1) (.cfg t1 r1) (.raw (.map d)) = (do
      let d1 ← dictItems t1 r1
      let d2 := d.map fun e => (e.1, PyObj.raw e.2)
      if d1.length = d2.length then allEntriesEqF f d1 d2 else pure false) := rfl

theorem pyObjEqF_raw_raw (f : Nat) (v1 v2 : Value) :
    pyObjEqF (f + 1) (.raw v1) (.raw v2) = .ok (pyEq v1 v2) := by
  cases v1 <;> cases v2 <;> rfl

theorem pyObjEqF_cfg_raw_nonmap (f : Nat) (t1 r1 : Entries) (v2 : Value)
    (h : isMap v2 = false) : pyObjEqF (f + 1) (.cfg t1 r1) (.raw v2) = .ok false := by
  cases v2 <;> first
    | rfl
    | (simp [isMap] at h)

theorem pyObjEqF_raw_nonmap_cfg (f : Nat) (v1 : Value) (t2 r2 : Entries)
    (h : isMap v1 = false) : pyObjEqF (f + 1) (.raw v1) (.cfg t2 r2) = .ok false := by
  cases v1 <;> first
    | rfl
    | (simp [isMap] at h)

theorem allEntriesEqF_nil (f : Nat) (other : List (String × PyObj)) :
    allEntriesEqF (f + 1) [] other = .ok true := rfl

theorem allEntriesEqF_cons (f : Nat) (k : String) (v1 : PyObj)
    (rest other : List (String × PyObj)) :
    allEntriesEqF (f + 1) ((k, v1) :: rest) other
      = (match lookupPO other k with
         | Option.none => .ok false
         | some v2 => do
             let b ← pyObjEqF f v1 v2
             if b then allEntriesEqF f rest other else pure false) := rfl

theorem pyEq_map_map (t1 t2 : Entries) :
    pyEq (.map t1) (.map t2) = ((t1.length == t2.length) && pyEqEntries t1 t2) := rfl

theorem pyEqEntries_cons (k : String) (v : Value) (rest other : Entries) :
    pyEqEntries ((k, v) :: rest) other
      = ((match lookupE other k with
          | some w => pyEq v w
          | Option.none => false) && pyEqEntries rest other) := rfl

theorem pyEq_map_nonmap (es : Entries) (v2 : Value) (h : isMap v2 = false) :
    pyEq (.map es) v2 = false := by
  cases v2 <;> first
    | rfl
    | (simp [isMap] at h)

theorem pyEq_nonmap_map (v1 : Value) (es : Entries) (h : isMap v1 = false) :
    pyEq v1 (.map es) = false := by
  cases v1 <;> first
    | rfl
    | (simp [isMap] at h)

theorem pyObjEqF_simple_pair : ∀ f : Nat,
    (∀ t1 r1 t2 r2, simpleE t1 = true → simpleE t2 = true → sizeE t1 + 2 ≤ f →
       pyObjEqF f (.cfg t1 r1) (.cfg t2 r2) = .ok (pyEq (.map t1) (.map t2)))
    ∧ (∀ rem1 t2 r1 r2, simpleE rem1 = true → simpleE t2 = true → sizeE rem1 + 1 ≤ f →
       allEntriesEqF f (wrapItems rem1 r1) (wrapItems t2 r2) = .ok (pyEqEntries rem1 t2)) := by
  intro f
  induction f using Nat.strong_induction_on with
  | _ f ih =>
      constructor
      · intro t1 r1 t2 r2 hs1 hs2 hf
        obtain ⟨f2, rfl⟩ : ∃ f2, f = f2 + 1 := ⟨f - 1, by omega⟩
        rw [pyObjEqF_cfg_cfg f2 t1 r1 t2 r2]
        rw [dictItems_simple t1 r1 hs1, ok_bind, dictItems_simple t2 r2 hs2, ok_bind]
        have hlen1 : (wrapItems t1 r1).length = t1.length := by simp [wrapItems]
        have hlen2 : (wrapItems t2 r2).length = t2.length := by simp [wrapItems]
        rw [pyEq_map_map]
        by_cases hlen : t1.length = t2.length
        · rw [if_pos (by rw [hlen1, hlen2]; exact hlen)]
          rw [(ih f2 (by omega)).2 t1 t2 r1 r2 hs1 hs2 (by omega)]
          have hb : (t1.length == t2.length) = true := by simp [hlen]
          rw [hb, Bool.true_and]
        · rw [if_neg (by rw [hlen1, hlen2]; exact hlen)]
          have hb : (t1.length == t2.length) = false := by simp [hlen]
          rw [hb, Bool.false_and]
          rfl
      · intro rem1 t2 r1 r2 hs1 hs2 hf
        obtain ⟨f2, rfl⟩ : ∃ f2, f = f2 + 1 := ⟨f - 1, by omega⟩
        cases rem1 with
        | nil =>
            rw [show wrapItems [] r1 = [] from rfl, allEntriesEqF_nil]
            rfl
        | cons e rest =>
            obtain ⟨k, v⟩ := e
            simp only [simpleE, Bool.and_eq_true] at hs1
            obtain ⟨⟨⟨h1, h2⟩, h3⟩, h4⟩ := hs1
            have hsz : sizeE ((k, v) :: rest) = 1 + k.length + sizeV v + sizeE rest := rfl
            have hvpos : 1 ≤ sizeV v := sizeV_pos v
            cases hlk2 : lookupE t2 k with
            | none =>
                have hlhs0 : allEntriesEqF (f2 + 1) (wrapItems ((k, v) :: rest) r1)
                    (wrapItems t2 r2) = .ok false := by
                  rw [show wrapItems ((k, v) :: rest) r1
                      = (k, wrapNR r1 v) :: wrapItems rest r1 from rfl]
                  rw [allEntriesEqF_cons, lookupPO_wrapItems, hlk2]
                  rfl
                have hrhs0 : pyEqEntries ((k, v) :: rest) t2 = false := by
                  rw [pyEqEntries_cons, hlk2]
                  simp
                rw [hlhs0, hrhs0]
            | some v2 =>
                have hsv2 : simpleV v2 = true := simple_lookup t2 k v2 hs2 hlk2
                have hlhs : allEntriesEqF (f2 + 1) (wrapItems ((k, v) :: rest) r1)
                    (wrapItems t2 r2)
                    = (do
                        let b ← pyObjEqF f2 (wrapNR r1 v) (wrapNR r2 v2)
                        if b then allEntriesEqF f2 (wrapItems rest r1) (wrapItems t2 r2)
                        else pure false) := by
                  rw [show wrapItems ((k, v) :: rest) r1
                      = (k, wrapNR r1 v) :: wrapItems rest r1 from rfl]
                  rw [allEntriesEqF_cons, lookupPO_wrapItems, hlk2]
                  rfl
                have hrhs : pyEqEntries ((k, v) :: rest) t2
                    = (pyEq v v2 && pyEqEntries rest t2) := by
                  rw [pyEqEntries_cons, hlk2]
                have hb : pyObjEqF f2 (wrapNR r1 v) (wrapNR r2 v2) = .ok (pyEq v v2) := by
                  obtain ⟨f3, rfl⟩ : ∃ f3, f2 = f3 + 1 := ⟨f2 - 1, by omega⟩
                  cases v with
                  | list xs => exact absurd h3 (by simp [simpleV])
                  | map es1 =>
                      cases v2 with
                      | map es2 =>
                          have hsz1 : sizeV (Value.map es1) = 1 + sizeE es1 := rfl
                          show pyObjEqF (f3 + 1) (.cfg es1 r1) (.cfg es2 r2)
                            = .ok (pyEq (.map es1) (.map es2))
                          exact (ih (f3 + 1) (by omega)).1 es1 r1 es2 r2 h3 hsv2 (by omega)
                      | list ys => exact absurd hsv2 (by simp [simpleV])
                      | none =>
                          rw [pyEq_map_nonmap es1 .none rfl]
                          exact pyObjEqF_cfg_raw_nonmap f3 es1 r1 .none rfl
                      | bool b =>
                          rw [pyEq_map_nonmap es1 (.bool b) rfl]
                          exact pyObjEqF_cfg_raw_nonmap f3 es1 r1 (.bool b) rfl
                      | int n =>
                          rw [pyEq_map_nonmap es1 (.int n) rfl]
                          exact pyObjEqF_cfg_raw_nonmap f3 es1 r1 (.int n) rfl
                      | str s =>
                          rw [pyEq_map_nonmap es1 (.str s) rfl]
                          exact pyObjEqF_cfg_raw_nonmap f3 es1 r1 (.str s) rfl
                  | none =>
                      cases v2 with
                      | map es2 =>
                          rw [pyEq_nonmap_map .none es2 rfl]
                          exact pyObjEqF_raw_nonmap_cfg f3 .none es2 r2 rfl
                      | list ys => exact absurd hsv2 (by simp [simpleV])
                      | none => exact pyObjEqF_raw_raw f3 .none .none
                      | bool b => exact pyObjEqF_raw_raw f3 .none (.bool b)
                      | int n => exact pyObjEqF_raw_raw f3 .none (.int n)
                      | str s => exact pyObjEqF_raw_raw f3 .none (.str s)
                  | bool a =>
                      cases v2 with
                      | map es2 =>
                          rw [pyEq_nonmap_map (.bool a) es2 rfl]
                          exact pyObjEqF_raw_nonmap_cfg f3 (.bool a) es2 r2 rfl
                      | list ys => exact absurd hsv2 (by simp [simpleV])
                      | none => exact pyObjEqF_raw_raw f3 (.bool a) .none
                      | bool b => exact pyObjEqF_raw_raw f3 (.bool a) (.bool b)
                      | int n => exact pyObjEqF_raw_raw f3 (.bool a) (.int n)
                      | str s => exact pyObjEqF_raw_raw f3 (.bool a) (.str s)
                  | int m =>
                      cases v2 with
                      | map es2 =>
                          rw [pyEq_nonmap_map (.int m) es2 rfl]
                          exact pyObjEqF_raw_nonmap_cfg f3 (.int m) es2 r2 rfl
                      | list ys => exact absurd hsv2 (by simp [simpleV])
                      | none => exact pyObjEqF_raw_raw f3 (.int m) .none
                      | bool b => exact pyObjEqF_raw_raw f3 (.int m) (.bool b)
                      | int n => exact pyObjEqF_raw_raw f3 (.int m) (.int n)
                      | str s => exact pyObjEqF_raw_raw f3 (.int m) (.str s)
                  | str u =>
                      cases v2 with
                      | map es2 =>
                          rw [pyEq_nonmap_map (.str u) es2 rfl]
                          exact pyObjEqF_raw_nonmap_cfg f3 (.str u) es2 r2 rfl
                      | list ys => exact absurd hsv2 (by simp [simpleV])
                      | none => exact pyObjEqF_raw_raw f3 (.str u) .none
                      | bool b => exact pyObjEqF_raw_raw f3 (.str u) (.bool b)
                      | int n => exact pyObjEqF_raw_raw f3 (.str u) (.int n)
                      | str s => exact pyObjEqF_raw_raw f3 (.str u) (.str s)
                rw [hlhs, hrhs, hb, ok_bind]
                cases hpe : pyEq v v2 with
                | true =>
                    rw [if_pos rfl]
                    rw [(ih f2 (by omega)).2 rest t2 r1 r2 h4 hs2 (by omega)]
                    rw [Bool.true_and]
                | false =>
                    rw [if_neg (by simp)]
                    rw [Bool.false_and]
                    rfl

theorem pyObjEqF_simple_map_pair : ∀ f : Nat,
    (∀ t1 r1 d, simpleE t1 = true → sizeE t1 + 2 ≤ f →
       pyObjEqF f (.cfg t1 r1) (.raw (.map d)) = .ok (pyEq (.map t1) (.map d)))
    ∧ (∀ rem1 d r1, simpleE rem1 = true → sizeE rem1 + 1 ≤ f →
       allEntriesEqF f (wrapItems rem1 r1) (rawItems d) = .ok (pyEqEntries rem1 d)) := by
  intro f
  induction f using Nat.strong_induction_on with
  | _ f ih =>
      constructor
      · intro t1 r1 d hs1 hf
        obtain ⟨f2, rfl⟩ : ∃ f2, f = f2 + 1 := ⟨f - 1, by omega⟩
        rw [pyObjEqF_cfg_rawmap f2 t1 r1 d]
        rw [dictItems_simple t1 r1 hs1, ok_bind]
        rw [show (d.map fun e => (e.1, PyObj.raw e.2)) = rawItems d from rfl]
        have hlen1 : (wrapItems t1 r1).length = t1.length := by simp [wrapItems]
        have hlen2 : (rawItems d).length = d.length := by simp [rawItems]
        rw [pyEq_map_map]
        by_cases hlen : t1.length = d.length
        · rw [if_pos (by rw [hlen1, hlen2]; exact hlen)]
          rw [(ih f2 (by omega)).2 t1 d r1 hs1 (by omega)]
          have hb : (t1.length == d.length) = true := by simp [hlen]
          rw [hb, Bool.true_and]
        · rw [if_neg (by rw [hlen1, hlen2]; exact hlen)]
          have hb : (t1.length == d.length) = false := by simp [hlen]
          rw [hb, Bool.false_and]
          rfl
      · intro rem1 d r1 hs1 hf
        obtain ⟨f2, rfl⟩ : ∃ f2, f = f2 + 1 := ⟨f - 1, by omega⟩
        cases rem1 with
        | nil =>
            rw [show wrapItems [] r1 = [] from rfl, allEntriesEqF_nil]
            rfl
        | cons e rest =>
            obtain ⟨k, v⟩ := e
            simp only [simpleE, Bool.and_eq_true] at hs1
            obtain ⟨⟨⟨h1, h2⟩, h3⟩, h4⟩ := hs1
            have hsz : sizeE ((k, v) :: rest) = 1 + k.length + sizeV v + sizeE rest := rfl
            have hvpos : 1 ≤ sizeV v := sizeV_pos v
            cases hlk2 : lookupE d k with
            | none =>
                have hlhs0 : allEntriesEqF (f2 + 1) (wrapItems ((k, v) :: rest) r1)
                    (rawItems d) = .ok false := by
                  rw [show wrapItems ((k, v) :: rest) r1
                      = (k, wrapNR r1 v) :: wrapItems rest r1 from rfl]
                  rw [allEntriesEqF_cons, lookupPO_rawItems, hlk2]
                  rfl
                have hrhs0 : pyEqEntries ((k, v) :: rest) d = false := by
                  rw [pyEqEntries_cons, hlk2]
                  simp
                rw [hlhs0, hrhs0]
            | some v2 =>
                have hlhs : allEntriesEqF (f2 + 1) (wrapItems ((k, v) :: rest) r1)
                    (rawItems d)
                    = (do
                        let b ← pyObjEqF f2 (wrapNR r1 v) (.raw v2)
                        if b then allEntriesEqF f2 (wrapItems rest r1) (rawItems d)
                        else pure false) := by
                  rw [show wrapItems ((k, v) :: rest) r1
                      = (k, wrapNR r1 v) :: wrapItems rest r1 from rfl]
                  rw [allEntriesEqF_cons, lookupPO_rawItems, hlk2]
                  rfl
                have hrhs : pyEqEntries ((k, v) :: rest) d
                    = (pyEq v v2 && pyEqEntries rest d) := by
                  rw [pyEqEntries_cons, hlk2]
                have hb : pyObjEqF f2 (wrapNR r1 v) (.raw v2) = .ok (pyEq v v2) := by
                  obtain ⟨f3, rfl⟩ : ∃ f3, f2 = f3 + 1 := ⟨f2 - 1, by omega⟩
                  cases v with
                  | list xs => exact absurd h3 (by simp [simpleV])
                  | map es1 =>
                      cases v2 with
                      | map d3 =>
                          have hsz1 : sizeV (Value.map es1) = 1 + sizeE es1 := rfl
                          show pyObjEqF (f3 + 1) (.cfg es1 r1) (.raw (.map d3))
                            = .ok (pyEq (.map es1) (.map d3))
                          exact (ih (f3 + 1) (by omega)).1 es1 r1 d3 h3 (by omega)
                      | list ys =>
                          rw [pyEq_map_nonmap es1 (.list ys) rfl]
                          exact pyObjEqF_cfg_raw_nonmap f3 es1 r1 (.list ys) rfl
                      | none =>
                          rw [pyEq_map_nonmap es1 .none rfl]
                          exact pyObjEqF_cfg_raw_nonmap f3 es1 r1 .none rfl
                      | bool b =>
                          rw [pyEq_map_nonmap es1 (.bool b) rfl]
                          exact pyObjEqF_cfg_raw_nonmap f3 es1 r1 (.bool b) rfl
                      | int n =>
                          rw [pyEq_map_nonmap es1 (.int n) rfl]
                          exact pyObjEqF_cfg_raw_nonmap f3 es1 r1 (.int n) rfl
                      | str s =>
                          rw [pyEq_map_nonmap es1 (.str s) rfl]
                          exact pyObjEqF_cfg_raw_nonmap f3 es1 r1 (.str s) rfl
                  | none => exact pyObjEqF_raw_raw f3 .none v2
                  | bool a => exact pyObjEqF_raw_raw f3 (.bool a) v2
                  | int m => exact pyObjEqF_raw_raw f3 (.int m) v2
                  | str u => exact pyObjEqF_raw_raw f3 (.str u) v2
                rw [hlhs, hrhs, hb, ok_bind]
                cases hpe : pyEq v v2 with
                | true =>
                    rw [if_pos rfl]
                    rw [(ih f2 (by omega)).2 rest d r1 h4 (by omega)]
                    rw [Bool.true_and]
                | false =>
                    rw [if_neg (by simp)]
                    rw [Bool.false_and]
                    rfl

/-- C7: counterexample.  Two configurations built from the *same* source
tree holding a list value compare unequal, although their recursively
unwrapped source trees are identical (and Python-`==`): `dict(self)` wraps
each list into a fresh `ConfigurationSequence`, which defines no `__eq__`
and therefore compares by object identity, so the two freshly created
views (or a view against the plain list) are never equal.  Hence
namespace equality does not hold whenever the unwrapped trees are equal:
the "iff" fails in the left-to-right-completeness direction as soon as a
list value appears. -/
theorem C7_counterexample_equal_trees_compare_unequal :
    pyEq (.map [("a", .list [.int 1])]) (.map [("a", .list [.int 1])]) = true
    ∧ cfgEq ⟨[("a", .list [.int 1])], [("a", .list [.int 1])], .silent⟩
        ⟨[("a", .list [.int 1])], [("a", .list [.int 1])], .silent⟩ = .ok false
    ∧ cfgEqMap ⟨[("a", .list [.int 1])], [("a", .list [.int 1])], .silent⟩
        [("a", .list [.int 1])] = .ok false := by
  decide

/-- C7: amended.  For simple source trees — no sequences, no `$\x7b...\x7d`
reference tokens in strings, separator-free unique keys — equality of two
namespaces, and of a namespace with a plain mapping, is exactly Python
`==` of the unwrapped source trees, independent of the missing-policy and
of the root (hence of any enclosing configuration) of either side. -/
theorem C7_namespace_equality_iff_trees (t1 t2 r1 r2 : Entries) (m1 m2 : MissingPolicy)
    (hs1 : simpleE t1 = true) (hs2 : simpleE t2 = true) :
    cfgEq ⟨t1, r1, m1⟩ ⟨t2, r2, m2⟩ = .ok (pyEq (.map t1) (.map t2))
    ∧ cfgEqMap ⟨t1, r1, m1⟩ t2 = .ok (pyEq (.map t1) (.map t2)) := by
  constructor
  · exact (pyObjEqF_simple_pair (sizeE t1 + sizeE t2 + 2)).1 t1 r1 t2 r2 hs1 hs2 (by omega)
  · exact (pyObjEqF_simple_map_pair (sizeE t1 + sizeE t2 + 2)).1 t1 r1 t2 hs1 (by omega)

theorem C7_namespace_equality_iff_trees_witness :
    cfgEq ⟨[("a", Value.int 1), ("m", Value.map [("s", Value.str "x")])],
           [("a", Value.int 1), ("m", Value.map [("s", Value.str "x")])], .silent⟩
        ⟨[("a", Value.int 1), ("m", Value.map [("s", Value.str "x")])],
         [("z", Value.int 9)], .errorOut⟩
      = .ok (pyEq (.map [("a", Value.int 1), ("m", Value.map [("s", Value.str "x")])])
          (.map [("a", Value.int 1), ("m", Value.map [("s", Value.str "x")])]))
    ∧ cfgEqMap ⟨[("a", Value.int 1), ("m", Value.map [("s", Value.str "x")])],
           [("a", Value.int 1), ("m", Value.map [("s", Value.str "x")])], .silent⟩
        [("a", Value.int 1), ("m", Value.map [("s", Value.str "x")])]
      = .ok (pyEq (.map [("a", Value.int 1), ("m", Value.map [("s", Value.str "x")])])
          (.map [("a", Value.int 1), ("m", Value.map [("s", Value.str "x")])])) :=
  C7_namespace_equality_iff_trees
    [("a", Value.int 1), ("m", Value.map [("s", Value.str "x")])]
    [("a", Value.int 1), ("m", Value.map [("s", Value.str "x")])]
    [("a", Value.int 1), ("m", Value.map [("s", Value.str "x")])]
    [("z", Value.int 9)] .silent .errorOut (by decide) (by decide)
